import Mathlib

set_option maxRecDepth 100000

/-!
Verification of the Logify CLI terminal-session recorder (src/index.js).

Strings are modelled as `List Char` (the code manipulates JavaScript strings
character-wise via `split`, `startsWith`, `includes`, regex scans); each
definition below embeds one function or command action of `src/index.js`.
-/

/-- Character list of a string literal. -/
def chars (s : String) : List Char := s.data

/-- The newline character as a one-element list. -/
def nl : List Char := ['\n']

/-- Boolean prefix test on character lists (embeds `String.prototype.startsWith`). -/
def isPre : List Char → List Char → Bool
  | [], _ => true
  | _ :: _, [] => false
  | a :: as, b :: bs => if a = b then isPre as bs else false

/-- Boolean substring test (embeds `String.prototype.includes`). -/
def containsSub : List Char → List Char → Bool
  | [], needle => needle.isEmpty
  | h :: t, needle => isPre needle (h :: t) || containsSub t needle

/-- JavaScript `\s` / `String.prototype.trim` whitespace class (ASCII part). -/
def jsWs (c : Char) : Bool :=
  c = ' ' || c = '\t' || c = '\n' || c = '\r' || c = '\x0b' || c = '\x0c'

/-- Embeds `String.prototype.trim`. -/
def jsTrim (cs : List Char) : List Char :=
  ((cs.dropWhile jsWs).reverse.dropWhile jsWs).reverse

/-- Embeds `content.split("\n")`. -/
def splitNl : List Char → List (List Char)
  | [] => [[]]
  | c :: rest =>
    if c = '\n' then [] :: splitNl rest
    else
      match splitNl rest with
      | [] => [[c]]
      | l :: ls => (c :: l) :: ls

/-- Fuelled scan of `s.split(sep)` for a non-empty separator `sep`: each step
consumes at least one character, so fuel at least the input length makes the
fuel irrelevant. -/
def jsSplitAux (sep : List Char) : Nat → List Char → List Char → List (List Char)
  | _, [], acc => [acc.reverse]
  | 0, cs, acc => [acc.reverse ++ cs]
  | fuel + 1, c :: cs, acc =>
    if isPre sep (c :: cs) then
      acc.reverse :: jsSplitAux sep fuel (List.drop (sep.length - 1) cs) []
    else
      jsSplitAux sep fuel cs (c :: acc)

/-- Embeds `s.split(sep)` (used with `"=== END ==="`). -/
def jsSplit (sep cs : List Char) : List (List Char) := jsSplitAux sep cs.length cs []

/-- One recorded command with its captured output lines (`{ time, cmd, output }`
objects built by `parseSessionLog`). -/
structure CommandEntry where
  time : List Char
  cmd : List Char
  output : List (List Char)
deriving DecidableEq, Repr

/-- `line.startsWith("=== [") && line.includes("COMMAND:")` — the entry-open test. -/
def isEntryOpen (line : List Char) : Bool :=
  isPre (chars "=== [") line && containsSub line (chars "COMMAND:")

/-- `line.startsWith("=== END ===")` — the entry-end test. -/
def isEndLine (line : List Char) : Bool :=
  isPre (chars "=== END ===") line

/-- Lazy capture of `/\[(.*?)\]/` starting right after a `[`: the characters up
to the first `]`, failing on end of input or a newline (`.` does not match `\n`). -/
def closeCapture : List Char → Option (List Char)
  | [] => none
  | c :: rest =>
    if c = ']' then some []
    else if c = '\n' then none
    else (closeCapture rest).map (fun l => c :: l)

/-- `line.match(/\[(.*?)\]/)?.[1]`: capture of the first `[` with a matching
`]`, `none` when the regex does not match. -/
def bracketTimeOpt : List Char → Option (List Char)
  | [] => none
  | c :: rest =>
    if c = '[' then
      match closeCapture rest with
      | some t => some t
      | none => bracketTimeOpt rest
    else bracketTimeOpt rest

/-- `line.match(/\[(.*?)\]/)?.[1] || ""`. -/
def bracketTime (line : List Char) : List Char := (bracketTimeOpt line).getD []

/-- The suffix after the rightmost occurrence of `sep` (the whole list when `sep`
does not occur) — the residue of `replace(/^.*sep/, "")` with greedy `.*`. -/
def afterLast (sep : List Char) : List Char → List Char
  | [] => []
  | c :: cs =>
    if containsSub cs sep then afterLast sep cs
    else if isPre sep (c :: cs) then List.drop sep.length (c :: cs)
    else afterLast sep cs

/-- `line.replace(/^.*COMMAND:\s*/, "").trim()` — the command text of a header line. -/
def cmdOf (line : List Char) : List Char :=
  jsTrim (List.dropWhile jsWs (afterLast (chars "COMMAND:") line))

/-- The line scan of `parseSessionLog`: open marker starts a fresh entry
(discarding any open one), the end marker emits the open entry, any other line
inside an open entry is appended to its output. -/
def parseLinesAux : List (List Char) → Option CommandEntry → List CommandEntry
  | [], _ => []
  | line :: rest, cur =>
    if isEntryOpen line then
      parseLinesAux rest (some ⟨bracketTime line, cmdOf line, []⟩)
    else if isEndLine line then
      match cur with
      | some e => e :: parseLinesAux rest none
      | none => parseLinesAux rest none
    else
      match cur with
      | some e => parseLinesAux rest (some ⟨e.time, e.cmd, e.output ++ [line]⟩)
      | none => parseLinesAux rest none

/-- `parseSessionLog(content)` (src/index.js lines 89-109): the log decoder. -/
def parseSessionLog (content : List Char) : List CommandEntry :=
  parseLinesAux (splitNl content) none

/-- The header line the `start` action appends for one command
(`=== [${nowTime()}] COMMAND: ${maskSensitive(cmd)}`, with the persisted —
already masked — command text as the `cmd` field). -/
def headerLine (e : CommandEntry) : List Char :=
  chars "=== [" ++ e.time ++ chars "] COMMAND: " ++ e.cmd

/-- The `=== END ===` marker line. -/
def endMark : List Char := chars "=== END ==="

/-- The on-disk block for one `CommandEntry`: header line, output lines, then
`=== END ===` and a blank line (src/index.js lines 150-167). -/
def encodeEntry (e : CommandEntry) : List Char :=
  headerLine e ++ nl ++ (e.output.map (fun o => o ++ nl)).flatten ++ endMark ++ nl ++ nl

/-- A session log holding the given entries in order. -/
def encodeLog (es : List CommandEntry) : List Char :=
  (es.map encodeEntry).flatten

example : parseSessionLog (encodeLog [⟨chars "10:00:00", chars "ls", []⟩]) =
    [⟨chars "10:00:00", chars "ls", []⟩] := by decide

example : parseSessionLog (encodeLog [⟨chars "10:00:00", chars "echo COMMAND: hi", []⟩]) =
    [⟨chars "10:00:00", chars "hi", []⟩] := by decide

/-- JavaScript `toLowerCase` on the ASCII range. -/
def lowerL (cs : List Char) : List Char := cs.map Char.toLower

/-- Backtracking of a greedy `\s+` that ran to the end of the input: the capture
of a following `(.+)` at the rightmost split that still leaves a matchable
(non-newline) character. -/
def wsBacktrack : List Char → Option (List Char)
  | [] => none
  | c :: rest =>
    match wsBacktrack rest with
    | some r => some r
    | none =>
      if c = '\n' then none
      else some ((c :: rest).takeWhile (fun d => d ≠ '\n'))

/-- Match of `/COMMAND:\s+(.+)/` (replay's `cmdMatch`): the capture at the first
position where the pattern succeeds. -/
def cmdCaptureLine : List Char → Option (List Char)
  | [] => none
  | c :: rest =>
    (if isPre (chars "COMMAND:") (c :: rest) then
      let after := List.drop 8 (c :: rest)
      let w := after.takeWhile jsWs
      let q := after.dropWhile jsWs
      if w.isEmpty then none
      else if q.isEmpty then wsBacktrack (List.drop 1 w)
      else some (q.takeWhile (fun d => d ≠ '\n'))
    else none).orElse (fun _ => cmdCaptureLine rest)

/-- Everything before the first occurrence of `needle` (the whole list when absent). -/
def upToSub (needle : List Char) : List Char → List Char
  | [] => []
  | c :: rest =>
    if isPre needle (c :: rest) then []
    else c :: upToSub needle rest

/-- Match of `/COMMAND:\s+([\s\S]*?)(?:OUTPUT:|$)/` (search's `cmdMatch`): the
lazy capture runs from after the greedy whitespace to the first `OUTPUT:`
occurrence, or to the end of the segment when there is none. -/
def searchCapture : List Char → Option (List Char)
  | [] => none
  | c :: rest =>
    (if isPre (chars "COMMAND:") (c :: rest) then
      let after := List.drop 8 (c :: rest)
      let w := after.takeWhile jsWs
      let q := after.dropWhile jsWs
      if w.isEmpty then none else some (upToSub (chars "OUTPUT:") q)
    else none).orElse (fun _ => searchCapture rest)

/-- Match of `/OUTPUT:\s+([\s\S]*)/` (search's `outputMatch`). -/
def outputCapture : List Char → Option (List Char)
  | [] => none
  | c :: rest =>
    (if isPre (chars "OUTPUT:") (c :: rest) then
      let after := List.drop 7 (c :: rest)
      let w := after.takeWhile jsWs
      if w.isEmpty then none else some (after.dropWhile jsWs)
    else none).orElse (fun _ => outputCapture rest)

/-- The `search` action (src/index.js lines 260-291): the file is split on
`=== END ===`; a segment is printed when its `cmdMatch` capture, trimmed,
contains the pattern case-insensitively. Each printed segment contributes its
displayed time and command text. -/
def searchHits (content pattern : List Char) : List (List Char × List Char) :=
  (jsSplit endMark content).filterMap (fun entry =>
    match searchCapture entry with
    | none => none
    | some cap =>
      let cmd := jsTrim cap
      if containsSub (lowerL cmd) (lowerL pattern) then
        some ((bracketTimeOpt entry).getD (chars "??:??:??"), cmd)
      else none)

/-- Visible replay events: one print per replayed entry, one suspension per
`setTimeout` await. -/
inductive ReplayEv where
  | printEntry (time cmd output : List Char)
  | delay
deriving DecidableEq, Repr

/-- One iteration of the replay loop (src/index.js lines 443-482) on one split
segment: segments without a `cmdMatch` are skipped entirely (`continue`), and in
timed mode the delay follows every replayed entry. -/
def replaySeg (fast : Bool) (entry : List Char) : List ReplayEv :=
  match cmdCaptureLine entry with
  | none => []
  | some cap =>
    let cmd := jsTrim cap
    let time := (bracketTimeOpt entry).getD (chars "??:??:??")
    let output := jsTrim (List.intercalate nl ((splitNl entry).filter (fun l =>
      !containsSub l (chars "COMMAND:") && !containsSub l (chars "===") &&
        !(jsTrim l).isEmpty)))
    ReplayEv.printEntry time cmd output :: (if fast then [] else [ReplayEv.delay])

/-- The `replay` action's event trace over a whole file. -/
def replayTrace (content : List Char) (fast : Bool) : List ReplayEv :=
  ((jsSplit endMark content).map (replaySeg fast)).flatten

/-- Number of inter-entry suspensions replay performs. -/
def replayDelayCount (content : List Char) (fast : Bool) : Nat :=
  (replayTrace content fast).countP (fun e => e == ReplayEv.delay)

/-- The `activeSession` record persisted in `logify-state.json`. -/
structure ActiveSession where
  pid : Nat
  logFile : List Char
deriving DecidableEq, Repr

/-- Observable side effects of the command actions. -/
inductive Effect where
  | appendLog (text : List Char)
  | writeState (s : ActiveSession)
  | spawnChild (cmd : List Char)
  | exitCode (n : Nat)
  | killPid (pid : Nat)
  | clearState
deriving DecidableEq, Repr

/-- `path.join(SESSIONS_DIR, "session-" + dateStr + ".log")` (directory
resolution is out-of-scope configuration). -/
def sessionFileForDate (d : List Char) : List Char :=
  chars "session-" ++ d ++ chars ".log"

/-- The boundary text `start` appends when a session begins. -/
def sessionStartLine (t : List Char) : List Char :=
  chars "=== Logify session started at " ++ t ++ chars " ===" ++ nl ++ nl

/-- The boundary text appended when a session ends. -/
def sessionEndLine (t : List Char) : List Char :=
  chars "=== Logify session ended at " ++ t ++ chars " ===" ++ nl

/-- The `start` action's guard (src/index.js lines 115-127). The stored state is
the parsed content of the state file; a missing or unparsable file reads as
`none` (`readState` returns `{}` on any failure). On conflict the process exits
with code 1 before any append, state write or spawn; otherwise the boundary is
appended and the new singleton `activeSession` is written. -/
def startAction (stored : Option ActiveSession) (pid : Nat) (date time : List Char) :
    List Effect × Option ActiveSession :=
  match stored with
  | some s => ([Effect.exitCode 1], some s)
  | none =>
    ([Effect.appendLog (sessionStartLine time),
      Effect.writeState ⟨pid, sessionFileForDate date⟩],
     some ⟨pid, sessionFileForDate date⟩)

/-- How many `ActiveSession` records a state-store content holds. -/
def sessionCount : Option ActiveSession → Nat
  | none => 0
  | some _ => 1

/-- Outcome reported by `stop`. -/
inductive StopOutcome where
  | notFound
  | stopped (pid : Nat) (delivered : Bool)
deriving DecidableEq, Repr

/-- The `stop` action (src/index.js lines 188-201): with no recorded session it
reports not-found and exits 1, touching no state; otherwise it signals the
recorded pid (`delivered` = whether `process.kill` succeeded) and clears the
state unconditionally. -/
def stopAction (stored : Option ActiveSession) (delivered : Bool) :
    StopOutcome × List Effect × Option ActiveSession :=
  match stored with
  | none => (StopOutcome.notFound, [Effect.exitCode 1], none)
  | some s =>
    (StopOutcome.stopped s.pid delivered, [Effect.killPid s.pid, Effect.clearState], none)

/-- `gracefulExit` (src/index.js lines 172-181), run on SIGINT/SIGTERM: append
the session-ended boundary to the log, clear the state, exit 0. Result: final
log text, final state-store content, effects. -/
def gracefulExit (log : List Char) (time : List Char) :
    List Char × Option ActiveSession × List Effect :=
  (log ++ sessionEndLine time, none, [Effect.exitCode 0])

/-- No newline inside a line. -/
def noNl (l : List Char) : Bool := l.all (fun c => c ≠ '\n')

/-- A timestamp the codec round-trips: single-line, no closing bracket. -/
def timeOK (t : List Char) : Bool := t.all (fun c => c ≠ '\n' && c ≠ ']')

/-- A command the codec round-trips: single-line, trim-stable, without the
command-marker text. -/
def cmdOK (c : List Char) : Bool :=
  noNl c && !containsSub c (chars "COMMAND:") && jsTrim c == c

/-- An output line the codec round-trips: single-line and not itself an
entry-open or entry-end marker line. -/
def outLineOK (o : List Char) : Bool := noNl o && !isEndLine o && !isEntryOpen o

/-- A `CommandEntry` the codec round-trips exactly. -/
def entryOK (e : CommandEntry) : Bool :=
  timeOK e.time && cmdOK e.cmd && e.output.all outLineOK

/-- A timestamp as `nowTime()` produces it: digits and colons. -/
def timeDigits (t : List Char) : Bool := t.all (fun c => c.isDigit || c = ':')

/-- Additional conditions under which the segment-based scans (`search`,
`replay`) see the encoded entries one-to-one: the timestamp is a digit/colon
time-of-day string, the command is non-empty, and no command or output line
smuggles in the end-marker or the `OUTPUT:` text. -/
def entrySegOK (e : CommandEntry) : Bool :=
  entryOK e && timeDigits e.time && !e.cmd.isEmpty &&
  !containsSub e.cmd endMark && !containsSub e.cmd (chars "OUTPUT:") &&
  e.output.all (fun o => !containsSub o endMark && !containsSub o (chars "OUTPUT:"))

/-- The lines one encoded entry block contributes to `split("\n")`. -/
def entryLines (e : CommandEntry) : List (List Char) :=
  headerLine e :: (e.output ++ [endMark, []])

/-- An entry block missing its `=== END ===` seal: the header line plus the
output flushed so far (what the log holds while a command is still running);
also the body a complete entry contributes to its `=== END ===`-split segment. -/
def partialBlock (e : CommandEntry) : List Char :=
  headerLine e ++ nl ++ (e.output.map (fun o => o ++ nl)).flatten

/-- `sep` does not occur in `body ++ sep` at any position strictly inside
`body` (so a split on `sep` scans all of `body` without firing). -/
def noSepWithin (sep : List Char) : List Char → Bool
  | [] => true
  | c :: rest => !isPre sep ((c :: rest) ++ sep) && noSepWithin sep rest

/-- The segments `content.split("=== END ===")` yields for an encoded log,
starting from the residue `pre` of the previous block (`""` at the start,
`"\n\n"` after an earlier entry). -/
def segsFrom : List Char → List CommandEntry → List (List Char)
  | pre, [] => [pre]
  | pre, e :: rest => (pre ++ partialBlock e) :: segsFrom (nl ++ nl) rest

/-- The command-and-output text of one entry as `search` displays it: the
trimmed text running from after the command marker to the end of the entry's
segment. -/
def searchText (e : CommandEntry) : List Char :=
  jsTrim (e.cmd ++ '\n' :: (e.output.map (fun o => o ++ nl)).flatten)

example : searchHits (encodeLog
    [⟨chars "10:00:00", chars "git status", [chars "on branch main"]⟩,
     ⟨chars "10:01:00", chars "npm install", [chars "cloning git repo"]⟩]) (chars "git") =
    [(chars "10:00:00", chars "git status" ++ nl ++ chars "on branch main"),
     (chars "10:01:00", chars "npm install" ++ nl ++ chars "cloning git repo")] := by decide

example : replayDelayCount (encodeLog [⟨chars "09:00:00", chars "ls", []⟩]) false = 1 := by
  decide

example : replayDelayCount (encodeLog [⟨chars "09:00:00", chars "ls", []⟩]) true = 0 := by
  decide

/-! Embedding of `maskSensitive` (src/index.js lines 71-78): four global regex
substitutions applied in order. A matcher receives the character preceding the
current position (`none` at the string edge, for `\b` tests) and the remaining
input; on success it yields the replacement text, the last source character the
match consumed, and the rest of the input. The scan then resumes after the
match, as JavaScript `String.replace` with the `g` flag does. -/

/-- Word characters for the JavaScript `\b` word-boundary assertion. -/
def isWordChar (c : Char) : Bool :=
  ('a' ≤ c && c ≤ 'z') || ('A' ≤ c && c ≤ 'Z') || ('0' ≤ c && c ≤ '9') || c = '_'

/-- `\b` between two positions; `none` stands for a string edge. -/
def isBoundary (prev next : Option Char) : Bool :=
  match prev, next with
  | none, none => false
  | none, some c => isWordChar c
  | some c, none => isWordChar c
  | some a, some b => isWordChar a != isWordChar b

/-- ASCII case-insensitive character equality (the `i` flag). -/
def ciEq (a b : Char) : Bool := a.toLower = b.toLower

/-- Case-insensitive literal prefix match: the consumed source characters and
the rest. -/
def ciPrefix : List Char → List Char → Option (List Char × List Char)
  | [], cs => some ([], cs)
  | _ :: _, [] => none
  | p :: ps, c :: cs =>
    if ciEq p c then (ciPrefix ps cs).map (fun r => (c :: r.1, r.2)) else none

/-- `(token|key|password|pwd|secret)` with JavaScript's left-to-right
alternative order. -/
def kwAlt (cs : List Char) : Option (List Char × List Char) :=
  (ciPrefix (chars "token") cs).orElse (fun _ =>
  (ciPrefix (chars "key") cs).orElse (fun _ =>
  (ciPrefix (chars "password") cs).orElse (fun _ =>
  (ciPrefix (chars "pwd") cs).orElse (fun _ =>
  ciPrefix (chars "secret") cs))))

/-- Matcher for `/(token|key|password|pwd|secret)\s*=\s*([^\s]+)/gi` with
replacement `$1=***`. -/
def m1 (_prev : Option Char) (cs : List Char) :
    Option (List Char × Char × List Char) :=
  match kwAlt cs with
  | none => none
  | some (kw, rest1) =>
    match rest1.dropWhile jsWs with
    | '=' :: rest3 =>
      let rest4 := rest3.dropWhile jsWs
      let v := rest4.takeWhile (fun c => !jsWs c)
      if v.isEmpty then none
      else some (kw ++ chars "=***", v.getLastD '=', rest4.drop v.length)
    | _ => none

/-- Local-part characters `[a-zA-Z0-9._%+-]` of the email rule. -/
def localChar (c : Char) : Bool :=
  ('a' ≤ c && c ≤ 'z') || ('A' ≤ c && c ≤ 'Z') || ('0' ≤ c && c ≤ '9') ||
  c = '.' || c = '_' || c = '%' || c = '+' || c = '-'

/-- Domain characters `[a-zA-Z0-9.-]` of the email rule. -/
def domChar (c : Char) : Bool :=
  ('a' ≤ c && c ≤ 'z') || ('A' ≤ c && c ≤ 'Z') || ('0' ≤ c && c ≤ '9') ||
  c = '.' || c = '-'

/-- Lowercase letters, the `[a-z]{2,}` class of the email rule. -/
def lowerChar (c : Char) : Bool := 'a' ≤ c && c ≤ 'z'

/-- Backtracking of the greedy `[a-zA-Z0-9.-]+\.[a-z]{2,}` over the maximal
domain-class run `D`: the largest split whose dot is followed by at least two
lowercase letters; greedy `[a-z]{2,}` then takes the maximal lowercase run. -/
def emailSplit (D : List Char) : Option (Nat × List Char) :=
  (List.range D.length).reverse.findSome? (fun k =>
    if 1 ≤ k then
      match D.drop k with
      | '.' :: restD =>
        let tld := restD.takeWhile lowerChar
        if 2 ≤ tld.length then some (k, tld) else none
      | _ => none
    else none)

/-- Matcher for `/[a-zA-Z0-9._%+-]+@[a-zA-Z0-9.-]+\.[a-z]{2,}/g` with
replacement `*****@*****`. -/
def m2 (_prev : Option Char) (cs : List Char) :
    Option (List Char × Char × List Char) :=
  let L := cs.takeWhile localChar
  if L.isEmpty then none
  else
    match cs.drop L.length with
    | '@' :: rest =>
      let D := rest.takeWhile domChar
      match emailSplit D with
      | none => none
      | some (k, tld) =>
        some (chars "*****@*****", tld.getLastD 'a', rest.drop (k + 1 + tld.length))
    | _ => none

/-- Hexadecimal digits (`[a-f0-9]` under the `i` flag). -/
def hexChar (c : Char) : Bool :=
  ('0' ≤ c && c ≤ '9') || ('a' ≤ c && c ≤ 'f') || ('A' ≤ c && c ≤ 'F')

/-- Matcher for `/\b[a-f0-9]{32,}\b/gi` with replacement `***`. Greedy
`{32,}` takes the maximal hex run; a shorter match cannot restore a failed
trailing boundary (hex characters are word characters), so no backtracking
succeeds when the full run's boundaries fail. -/
def m3 (prev : Option Char) (cs : List Char) :
    Option (List Char × Char × List Char) :=
  let run := cs.takeWhile hexChar
  match run with
  | [] => none
  | r₀ :: _ =>
    if 32 ≤ run.length && isBoundary prev (some r₀) &&
        isBoundary (some (run.getLastD r₀)) ((cs.drop run.length).head?) then
      some (chars "***", run.getLastD r₀, cs.drop run.length)
    else none

/-- Base64-ish characters `[A-Za-z0-9+/=]`. -/
def b64Char (c : Char) : Bool :=
  ('a' ≤ c && c ≤ 'z') || ('A' ≤ c && c ≤ 'Z') || ('0' ≤ c && c ≤ '9') ||
  c = '+' || c = '/' || c = '='

/-- Backtracking of the greedy `{20,}` over the maximal class run: the largest
cut of at least 20 characters whose end sits on a word boundary (an interior
cut can be a boundary because `+`, `/`, `=` are not word characters). -/
def bestCut (run : List Char) (next : Option Char) : Option Nat :=
  (List.range (run.length + 1)).reverse.findSome? (fun k =>
    if 20 ≤ k then
      match run.get? (k - 1) with
      | none => none
      | some lastc =>
        let nxt := if k < run.length then run.get? k else next
        if isBoundary (some lastc) nxt then some k else none
    else none)

/-- Matcher for `/\b[A-Za-z0-9+/=]{20,}\b/g` with replacement `***`. -/
def m4 (prev : Option Char) (cs : List Char) :
    Option (List Char × Char × List Char) :=
  let run := cs.takeWhile b64Char
  match run with
  | [] => none
  | r₀ :: _ =>
    if isBoundary prev (some r₀) then
      match bestCut run ((cs.drop run.length).head?) with
      | none => none
      | some k => some (chars "***", (run.get? (k - 1)).getD r₀, cs.drop k)
    else none

/-- Global scan of one substitution rule: try the matcher at every position,
left to right, resuming after each replacement; the fuel is at least the input
length and every match consumes at least one character, so it never runs out. -/
def globalReplaceB (m : Option Char → List Char → Option (List Char × Char × List Char)) :
    Nat → Option Char → List Char → List Char
  | 0, _, cs => cs
  | _ + 1, _, [] => []
  | fuel + 1, prev, c :: cs =>
    match m prev (c :: cs) with
    | some (rep, lastC, rest) => rep ++ globalReplaceB m fuel (some lastC) rest
    | none => c :: globalReplaceB m fuel (some c) cs

/-- One full pass of a rule over a string. -/
def runRule (m : Option Char → List Char → Option (List Char × Char × List Char))
    (cs : List Char) : List Char :=
  globalReplaceB m cs.length none cs

/-- `maskSensitive(text)` (src/index.js lines 71-78): the four substitutions in
source order (`!text` only short-circuits the empty string, on which the
pipeline is the identity anyway). -/
def maskSensitive (text : List Char) : List Char :=
  runRule m4 (runRule m3 (runRule m2 (runRule m1 text)))

/-! Bridges from the Boolean scanners to prefix/infix propositions. -/

theorem isPre_iff {p l : List Char} : isPre p l = true ↔ p <+: l := by
  induction p generalizing l with
  | nil => simp [isPre]
  | cons a as ih =>
    cases l with
    | nil => simp [isPre]
    | cons b bs =>
      by_cases hab : a = b
      · subst hab
        simp [isPre, List.cons_prefix_cons, ih]
      · simp [isPre, hab, List.cons_prefix_cons]

theorem containsSub_iff {l n : List Char} : containsSub l n = true ↔ n <:+: l := by
  induction l with
  | nil => simp [containsSub, List.infix_nil, List.isEmpty_iff]
  | cons h t ih =>
    simp [containsSub, isPre_iff, ih, List.infix_cons_iff]

theorem isPre_self_append (p r : List Char) : isPre p (p ++ r) = true :=
  isPre_iff.mpr (List.prefix_append p r)

theorem containsSub_mid (x n y : List Char) : containsSub (x ++ n ++ y) n = true :=
  containsSub_iff.mpr ⟨x, y, rfl⟩

theorem containsSub_absent_append {a b n : List Char} {c₀ : Char} {n₀ : List Char}
    (hn : n = c₀ :: n₀) (ha : ∀ x ∈ a, x ≠ c₀) (hb : containsSub b n = false) :
    containsSub (a ++ b) n = false := by
  induction a with
  | nil => simpa using hb
  | cons c rest ih =>
    have hc : c ≠ c₀ := ha c (List.mem_cons_self c rest)
    have hrest : ∀ x ∈ rest, x ≠ c₀ := fun x hx => ha x (List.mem_cons_of_mem c hx)
    have hcc : ¬ (c₀ = c) := fun h => hc h.symm
    have hpre : isPre n (c :: (rest ++ b)) = false := by
      subst hn
      simp [isPre, hcc]
    simp [containsSub, hpre, ih hrest]

/-! The codec lemmas: how `parseSessionLog` walks the lines the `start` action writes. -/

theorem dropWhile_length_le (p : Char → Bool) (l : List Char) :
    (List.dropWhile p l).length ≤ l.length := by
  induction l with
  | nil => simp
  | cons a t ih =>
    by_cases h : p a
    · simp only [List.dropWhile_cons, h, if_true]
      exact Nat.le_trans ih (Nat.le_succ _)
    · simp [List.dropWhile_cons, h]

theorem dropWhile_eq_self_of_length {p : Char → Bool} {l : List Char}
    (h : (List.dropWhile p l).length = l.length) : List.dropWhile p l = l := by
  cases l with
  | nil => simp
  | cons a t =>
    by_cases hpa : p a
    · exfalso
      have h1 : List.dropWhile p (a :: t) = List.dropWhile p t := by
        simp [List.dropWhile_cons, hpa]
      have h2 := dropWhile_length_le p t
      rw [h1] at h
      simp at h
      omega
    · simp [List.dropWhile_cons, hpa]

theorem dropWhile_eq_self_of_trimStable {c : List Char} (h : jsTrim c = c) :
    List.dropWhile jsWs c = c := by
  apply dropWhile_eq_self_of_length
  have h1 : c.length ≤ (List.dropWhile jsWs c).length := by
    conv_lhs => rw [← h]
    unfold jsTrim
    calc (((c.dropWhile jsWs).reverse.dropWhile jsWs).reverse).length
        = ((c.dropWhile jsWs).reverse.dropWhile jsWs).length := by simp
      _ ≤ (c.dropWhile jsWs).reverse.length := dropWhile_length_le _ _
      _ = (c.dropWhile jsWs).length := by simp
  have h2 := dropWhile_length_le jsWs c
  omega

theorem cmdOK_parts {c : List Char} (h : cmdOK c = true) :
    noNl c = true ∧ containsSub c (chars "COMMAND:") = false ∧ jsTrim c = c := by
  simp only [cmdOK, Bool.and_eq_true, Bool.not_eq_true', beq_iff_eq] at h
  exact ⟨h.1.1, h.1.2, h.2⟩

theorem entryOK_parts {e : CommandEntry} (h : entryOK e = true) :
    timeOK e.time = true ∧ cmdOK e.cmd = true ∧ e.output.all outLineOK = true := by
  simp only [entryOK, Bool.and_eq_true] at h
  exact ⟨h.1.1, h.1.2, h.2⟩

theorem closeCapture_ends {t : List Char} (r : List Char) (h : timeOK t = true) :
    closeCapture (t ++ ']' :: r) = some t := by
  induction t with
  | nil => simp [closeCapture]
  | cons a t ih =>
    simp only [timeOK, List.all_cons, Bool.and_eq_true, decide_eq_true_eq] at h
    have ha1 : a ≠ ']' := h.1.2
    have ha2 : a ≠ '\n' := h.1.1
    have ih2 := ih (by simpa [timeOK] using h.2)
    simp [closeCapture, ha1, ha2, ih2]

theorem header_assoc (e : CommandEntry) :
    headerLine e = chars "=== [" ++ (e.time ++ (']' :: (chars " COMMAND: " ++ e.cmd))) := by
  have h : chars "] COMMAND: " = ']' :: chars " COMMAND: " := rfl
  simp [headerLine, h, List.append_assoc]

theorem bracketTime_header {e : CommandEntry} (h : timeOK e.time = true) :
    bracketTimeOpt (headerLine e) = some e.time := by
  rw [header_assoc]
  have hstep : chars "=== [" ++ (e.time ++ (']' :: (chars " COMMAND: " ++ e.cmd)))
      = '=' :: '=' :: '=' :: ' ' :: '[' :: (e.time ++ (']' :: (chars " COMMAND: " ++ e.cmd))) := rfl
  rw [hstep]
  have hcc := closeCapture_ends (chars " COMMAND: " ++ e.cmd) h
  simp [bracketTimeOpt, hcc]

theorem afterLast_concat {s₀ : Char} {sep₀ : List Char} (x y : List Char)
    (hy : containsSub (sep₀ ++ y) (s₀ :: sep₀) = false) :
    afterLast (s₀ :: sep₀) (x ++ ((s₀ :: sep₀) ++ y)) = y := by
  induction x with
  | nil =>
    simp only [List.nil_append, List.cons_append, afterLast, List.append_eq]
    rw [hy]
    have h2 : isPre (s₀ :: sep₀) (s₀ :: (sep₀ ++ y)) = true := by
      have h3 : s₀ :: (sep₀ ++ y) = (s₀ :: sep₀) ++ y := by simp
      rw [h3]
      exact isPre_self_append _ _
    simp only [Bool.false_eq_true, if_false, h2, if_true]
    have h3 : s₀ :: (sep₀ ++ y) = (s₀ :: sep₀) ++ y := by simp
    rw [h3]
    exact List.drop_left _ _
  | cons a x₁ ih =>
    simp only [List.cons_append, afterLast, List.append_eq]
    have hmid : containsSub (x₁ ++ (s₀ :: (sep₀ ++ y))) (s₀ :: sep₀) = true := by
      have h4 : x₁ ++ (s₀ :: (sep₀ ++ y)) = x₁ ++ (s₀ :: sep₀) ++ y := by simp
      rw [h4]
      exact containsSub_mid x₁ (s₀ :: sep₀) y
    rw [hmid]
    simp only [if_true]
    have h5 : x₁ ++ (s₀ :: (sep₀ ++ y)) = x₁ ++ ((s₀ :: sep₀) ++ y) := by simp
    rw [h5]
    exact ih

theorem outLineOK_parts {o : List Char} (h : outLineOK o = true) :
    noNl o = true ∧ isEndLine o = false ∧ isEntryOpen o = false := by
  simp only [outLineOK, Bool.and_eq_true, Bool.not_eq_true'] at h
  exact ⟨h.1.1, h.1.2, h.2⟩

theorem cmdOf_header {e : CommandEntry} (h : cmdOK e.cmd = true) :
    cmdOf (headerLine e) = e.cmd := by
  obtain ⟨hnl, hnc, htr⟩ := cmdOK_parts h
  have hdec : headerLine e =
      (chars "=== [" ++ e.time ++ chars "] ") ++ (chars "COMMAND:" ++ (chars " " ++ e.cmd)) := by
    have h1 : chars "] COMMAND: " = chars "] " ++ (chars "COMMAND:" ++ chars " ") := by decide
    simp [headerLine, h1, List.append_assoc]
  have hy : containsSub (chars "OMMAND:" ++ (chars " " ++ e.cmd)) ('C' :: chars "OMMAND:") = false := by
    have h2 : chars "OMMAND:" ++ (chars " " ++ e.cmd) = chars "OMMAND: " ++ e.cmd := by
      have h3 : chars "OMMAND: " = chars "OMMAND:" ++ chars " " := by decide
      simp [h3, List.append_assoc]
    rw [h2]
    exact containsSub_absent_append rfl (by decide) hnc
  show jsTrim (List.dropWhile jsWs (afterLast (chars "COMMAND:") (headerLine e))) = e.cmd
  rw [hdec]
  have hsep : chars "COMMAND:" = 'C' :: chars "OMMAND:" := rfl
  rw [hsep, afterLast_concat _ _ hy]
  have h4 : chars " " ++ e.cmd = ' ' :: e.cmd := rfl
  rw [h4]
  have hws : jsWs ' ' = true := by decide
  simp [List.dropWhile_cons, hws, dropWhile_eq_self_of_trimStable htr, htr]

theorem isEntryOpen_header (e : CommandEntry) : isEntryOpen (headerLine e) = true := by
  have h1 : isPre (chars "=== [") (headerLine e) = true := by
    rw [header_assoc]
    exact isPre_self_append _ _
  have h2 : containsSub (headerLine e) (chars "COMMAND:") = true := by
    have hdec : headerLine e =
        (chars "=== [" ++ e.time ++ chars "] ") ++ chars "COMMAND:" ++ (chars " " ++ e.cmd) := by
      have h1 : chars "] COMMAND: " = chars "] " ++ (chars "COMMAND:" ++ chars " ") := by decide
      simp [headerLine, h1, List.append_assoc]
    rw [hdec]
    exact containsSub_mid _ _ _
  simp [isEntryOpen, h1, h2]

theorem parse_skipOutputs {outs : List (List Char)} (h : outs.all outLineOK = true)
    (rest : List (List Char)) (t c : List Char) (acc : List (List Char)) :
    parseLinesAux (outs ++ rest) (some ⟨t, c, acc⟩) =
      parseLinesAux rest (some ⟨t, c, acc ++ outs⟩) := by
  induction outs generalizing acc with
  | nil => simp
  | cons o os ih =>
    simp only [List.all_cons, Bool.and_eq_true] at h
    obtain ⟨hnl, hend, hopen⟩ := outLineOK_parts h.1
    simp only [List.cons_append, parseLinesAux, hopen, hend, Bool.false_eq_true, if_false,
      List.append_eq]
    rw [ih h.2]
    simp

theorem parse_entryChain {e : CommandEntry} (h : entryOK e = true) (rest : List (List Char))
    (st : Option CommandEntry) :
    parseLinesAux (entryLines e ++ rest) st = e :: parseLinesAux rest none := by
  obtain ⟨ht, hc, ho⟩ := entryOK_parts h
  have hbt : bracketTime (headerLine e) = e.time := by
    simp [bracketTime, bracketTime_header ht]
  simp only [entryLines, List.cons_append, parseLinesAux, isEntryOpen_header, if_true,
    hbt, cmdOf_header hc, List.append_eq]
  have hassoc : (e.output ++ [endMark, []]) ++ rest = e.output ++ (endMark :: [] :: rest) := by
    simp
  rw [hassoc, parse_skipOutputs ho]
  have h1 : isEntryOpen endMark = false := by decide
  have h2 : isEndLine endMark = true := by decide
  have h3 : isEntryOpen ([] : List Char) = false := by decide
  have h4 : isEndLine ([] : List Char) = false := by decide
  simp [parseLinesAux, h1, h2, h3, h4]

theorem timeOK_noNl {t : List Char} (h : timeOK t = true) : noNl t = true := by
  simp only [timeOK, noNl, List.all_eq_true, Bool.and_eq_true, decide_eq_true_eq] at h ⊢
  exact fun x hx => (h x hx).1

theorem noNl_append {a b : List Char} : noNl (a ++ b) = (noNl a && noNl b) := by
  simp [noNl, List.all_append]

theorem noNl_header {e : CommandEntry} (h : entryOK e = true) : noNl (headerLine e) = true := by
  obtain ⟨ht, hc, _⟩ := entryOK_parts h
  have h1 := timeOK_noNl ht
  have h2 := (cmdOK_parts hc).1
  simp [headerLine, noNl_append, h1, h2]
  decide

theorem splitNl_line {a : List Char} (rest : List Char) (h : noNl a = true) :
    splitNl (a ++ '\n' :: rest) = a :: splitNl rest := by
  induction a with
  | nil => simp [splitNl]
  | cons c cs ih =>
    simp only [noNl, List.all_cons, Bool.and_eq_true, decide_eq_true_eq] at h
    have ih2 := ih (by simpa [noNl] using h.2)
    simp only [List.cons_append, splitNl, h.1, if_false, List.append_eq, ih2]

theorem splitNl_outFlat {outs : List (List Char)} (h : outs.all noNl = true)
    (X : List Char) :
    splitNl ((outs.map (fun o => o ++ nl)).flatten ++ X) = outs ++ splitNl X := by
  induction outs with
  | nil => simp
  | cons o os ih =>
    simp only [List.all_cons, Bool.and_eq_true] at h
    have hnl := h.1
    have hsh : ((o :: os).map (fun o => o ++ nl)).flatten ++ X =
        o ++ '\n' :: ((os.map (fun o => o ++ nl)).flatten ++ X) := by
      simp [nl, List.append_assoc]
    rw [hsh, splitNl_line _ hnl, ih h.2]
    simp

theorem all_noNl_of_outLineOK {outs : List (List Char)} (h : outs.all outLineOK = true) :
    outs.all noNl = true := by
  simp only [List.all_eq_true] at h ⊢
  exact fun o ho => (outLineOK_parts (h o ho)).1

theorem splitNl_encodeEntry {e : CommandEntry} (h : entryOK e = true) (X : List Char) :
    splitNl (encodeEntry e ++ X) = entryLines e ++ splitNl X := by
  have ho := all_noNl_of_outLineOK (entryOK_parts h).2.2
  have hsh : encodeEntry e ++ X =
      headerLine e ++ '\n' :: ((e.output.map (fun o => o ++ nl)).flatten ++
        (endMark ++ '\n' :: ('\n' :: X))) := by
    simp [encodeEntry, nl, List.append_assoc]
  rw [hsh, splitNl_line _ (noNl_header h), splitNl_outFlat ho,
    splitNl_line _ (by decide : noNl endMark = true)]
  have hbl : splitNl ('\n' :: X) = [] :: splitNl X := by simp [splitNl]
  rw [hbl]
  simp [entryLines]

theorem splitNl_encodeLog {es : List CommandEntry} (h : es.all entryOK = true) (X : List Char) :
    splitNl (encodeLog es ++ X) = (es.map entryLines).flatten ++ splitNl X := by
  induction es with
  | nil => simp [encodeLog]
  | cons e es ih =>
    simp only [List.all_cons, Bool.and_eq_true] at h
    have hsh : encodeLog (e :: es) ++ X = encodeEntry e ++ (encodeLog es ++ X) := by
      simp [encodeLog, List.append_assoc]
    rw [hsh, splitNl_encodeEntry h.1, ih h.2]
    simp

theorem parseChain {es : List CommandEntry} (h : es.all entryOK = true)
    (rest : List (List Char)) :
    parseLinesAux ((es.map entryLines).flatten ++ rest) none = es ++ parseLinesAux rest none := by
  induction es with
  | nil => simp
  | cons e es ih =>
    simp only [List.all_cons, Bool.and_eq_true] at h
    have hsh : ((e :: es).map entryLines).flatten ++ rest =
        entryLines e ++ ((es.map entryLines).flatten ++ rest) := by
      simp [List.append_assoc]
    rw [hsh, parse_entryChain h.1, ih h.2]
    simp

theorem parse_noEnd {L : List (List Char)} (h : ∀ l ∈ L, isEndLine l = false)
    (st : Option CommandEntry) : parseLinesAux L st = [] := by
  induction L generalizing st with
  | nil => simp [parseLinesAux]
  | cons l L ih =>
    have hl := h l (List.mem_cons_self l L)
    have hL : ∀ x ∈ L, isEndLine x = false := fun x hx => h x (List.mem_cons_of_mem l hx)
    by_cases hop : isEntryOpen l = true
    · simp only [parseLinesAux, hop, if_true]
      exact ih hL _
    · simp only [parseLinesAux, Bool.not_eq_true] at hop
      simp only [parseLinesAux, hop, hl, Bool.false_eq_true, if_false]
      cases st with
      | none => exact ih hL _
      | some e => exact ih hL _

/-- C1 counterexample. The round-trip claim fails as stated: the entry
`echo COMMAND: hi` (output lines trivially free of end-marker text) decodes to
command `hi`, because the decoder strips greedily up to the *last* `COMMAND:`
occurrence of the header line; likewise an output line shaped like an
entry-open marker restarts the entry instead of being preserved. -/
theorem c1_decode_encode_counterexample :
    (CommandEntry.mk (chars "10:00:00") (chars "echo COMMAND: hi") []).output.all
        (fun o => !containsSub o endMark) = true ∧
    parseSessionLog (encodeLog
        [CommandEntry.mk (chars "10:00:00") (chars "echo COMMAND: hi") []]) ≠
      [CommandEntry.mk (chars "10:00:00") (chars "echo COMMAND: hi") []] ∧
    (CommandEntry.mk (chars "10:05:00") (chars "ls")
        [chars "=== [x] COMMAND: rm"]).output.all
        (fun o => !containsSub o endMark) = true ∧
    parseSessionLog (encodeLog
        [CommandEntry.mk (chars "10:05:00") (chars "ls") [chars "=== [x] COMMAND: rm"]]) ≠
      [CommandEntry.mk (chars "10:05:00") (chars "ls") [chars "=== [x] COMMAND: rm"]] := by
  decide

/-- C1 (amended). Decode after encode is the identity on well-formed entry
sequences, where well-formed additionally requires: the timestamp has no `]` or
newline, the command is trim-stable, single-line and free of the `COMMAND:`
marker text, and each output line is single-line and is neither an entry-open
nor an entry-end marker line. -/
theorem c1_decode_encode_amended {es : List CommandEntry} (h : es.all entryOK = true) :
    parseSessionLog (encodeLog es) = es := by
  show parseLinesAux (splitNl (encodeLog es)) none = es
  have h0 : encodeLog es = encodeLog es ++ [] := by simp
  rw [h0, splitNl_encodeLog h, parseChain h]
  have h1 : parseLinesAux (splitNl []) none = [] := by decide
  rw [h1]
  simp

/-- C1 witness. -/
theorem c1_decode_encode_amended_witness :
    parseSessionLog (encodeLog
      [CommandEntry.mk (chars "10:00:00") (chars "git status") [chars "on branch main", []],
       CommandEntry.mk (chars "10:00:05") (chars "ls") []]) =
      [CommandEntry.mk (chars "10:00:00") (chars "git status") [chars "on branch main", []],
       CommandEntry.mk (chars "10:00:05") (chars "ls") []] :=
  c1_decode_encode_amended (by decide)

/-- C4. Decoding a log truncated mid-entry returns exactly the prior
fully-terminated entries: any trailing text none of whose lines starts with the
end marker (an unterminated trailing entry, stray output, half-written lines)
contributes nothing to the decoded sequence. -/
theorem c4_truncated_decode {es : List CommandEntry} {tail : List Char}
    (h : es.all entryOK = true) (htail : ∀ l ∈ splitNl tail, isEndLine l = false) :
    parseSessionLog (encodeLog es ++ tail) = es := by
  show parseLinesAux (splitNl (encodeLog es ++ tail)) none = es
  rw [splitNl_encodeLog h, parseChain h, parse_noEnd htail]
  simp

/-- C4 witness: one complete entry followed by a mid-entry truncation. -/
theorem c4_truncated_decode_witness :
    parseSessionLog (encodeLog [CommandEntry.mk (chars "10:00:00") (chars "ls") [chars "a.txt"]] ++
      (chars "=== [10:00:05] COMMAND: make" ++ nl ++ chars "compiling")) =
      [CommandEntry.mk (chars "10:00:00") (chars "ls") [chars "a.txt"]] :=
  c4_truncated_decode (by decide) (by decide)

/-- C10. An entry-open marker met while an entry is open silently discards the
whole open entry (header and collected output) and starts afresh: an
unterminated entry anywhere in the file disappears from the decoded sequence,
and is not merged into its neighbour. -/
theorem c10_openMarker_discards {e₁ e₂ : CommandEntry}
    (h₁ : entryOK e₁ = true) (h₂ : entryOK e₂ = true) :
    parseSessionLog (partialBlock e₁ ++ encodeEntry e₂) = [e₂] := by
  show parseLinesAux (splitNl (partialBlock e₁ ++ encodeEntry e₂)) none = [e₂]
  have hX : partialBlock e₁ ++ encodeEntry e₂ =
      headerLine e₁ ++ '\n' :: ((e₁.output.map (fun o => o ++ nl)).flatten ++
        (encodeEntry e₂ ++ [])) := by
    simp [partialBlock, nl, List.append_assoc]
  rw [hX, splitNl_line _ (noNl_header h₁),
    splitNl_outFlat (all_noNl_of_outLineOK (entryOK_parts h₁).2.2), splitNl_encodeEntry h₂]
  simp only [parseLinesAux, isEntryOpen_header, if_true]
  rw [parse_skipOutputs (entryOK_parts h₁).2.2, parse_entryChain h₂]
  have h1 : parseLinesAux (splitNl []) none = [] := by decide
  rw [h1]

/-- C10 witness. -/
theorem c10_openMarker_discards_witness :
    parseSessionLog (partialBlock (CommandEntry.mk (chars "09:00:00") (chars "sleep 60")
        [chars "zzz"]) ++
      encodeEntry (CommandEntry.mk (chars "09:01:00") (chars "pwd") [chars "/home"])) =
      [CommandEntry.mk (chars "09:01:00") (chars "pwd") [chars "/home"]] :=
  c10_openMarker_discards (by decide) (by decide)

theorem isEndLine_endBoundary (t : List Char) :
    isEndLine (chars "=== Logify session ended at " ++ t ++ chars " ===") = false := by
  have hsh : chars "=== Logify session ended at " ++ t ++ chars " ===" =
      '=' :: '=' :: '=' :: ' ' :: 'L' ::
        (chars "ogify session ended at " ++ t ++ chars " ===") := rfl
  have hE : chars "=== END ===" = '=' :: '=' :: '=' :: ' ' :: 'E' :: chars "ND ===" := rfl
  rw [hsh]
  simp [isEndLine, hE, isPre]

/-- C6 counterexample. A termination signal while an entry is open does *not*
seal it with the end marker: `gracefulExit` appends only the session-ended
boundary, the final log contains no `=== END ===` at all, and the open entry is
dropped by the decoder instead of being preserved with its flushed output. -/
theorem c6_gracefulExit_counterexample :
    parseSessionLog (gracefulExit
      (sessionStartLine (chars "10:00:00") ++
        partialBlock (CommandEntry.mk (chars "10:00:01") (chars "sleep 60") [chars "partial"]))
      (chars "10:00:02")).1 = [] ∧
    containsSub (gracefulExit
      (sessionStartLine (chars "10:00:00") ++
        partialBlock (CommandEntry.mk (chars "10:00:01") (chars "sleep 60") [chars "partial"]))
      (chars "10:00:02")).1 endMark = false := by
  decide

/-- C6 (amended). On a termination signal the recorder appends the
session-ended boundary and clears the session state before exiting, but it does
not seal an open entry: the boundary is not an end marker, so the decoded log
still contains exactly the previously completed entries and the open entry's
flushed lines are dropped. -/
theorem c6_gracefulExit_amended {es : List CommandEntry} {tailLines : List (List Char)}
    {time : List Char} (h : es.all entryOK = true)
    (htail : ∀ l ∈ tailLines, noNl l = true ∧ isEndLine l = false)
    (htime : noNl time = true) :
    parseSessionLog (gracefulExit
        (encodeLog es ++ (tailLines.map (fun l => l ++ nl)).flatten) time).1 = es ∧
    (gracefulExit (encodeLog es ++ (tailLines.map (fun l => l ++ nl)).flatten) time).2.1 =
      none := by
  constructor
  · have hL : (gracefulExit (encodeLog es ++ (tailLines.map (fun l => l ++ nl)).flatten)
          time).1 =
        encodeLog es ++
          (((tailLines ++ [chars "=== Logify session ended at " ++ time ++ chars " ==="]).map
            (fun l => l ++ nl)).flatten ++ []) := by
      simp [gracefulExit, sessionEndLine, nl, List.append_assoc]
    show parseLinesAux (splitNl _) none = es
    rw [hL]
    have hAllNl : (tailLines ++
        [chars "=== Logify session ended at " ++ time ++ chars " ==="]).all noNl = true := by
      rw [List.all_append]
      simp only [Bool.and_eq_true, List.all_eq_true]
      constructor
      · exact fun l hl => (htail l hl).1
      · intro l hl
        simp only [List.mem_cons, List.not_mem_nil, or_false] at hl
        subst hl
        have hb1 : noNl (chars "=== Logify session ended at ") = true := by decide
        have hb2 : noNl (chars " ===") = true := by decide
        simp [noNl_append, htime, hb1, hb2]
    rw [splitNl_encodeLog h, splitNl_outFlat hAllNl, parseChain h, parse_noEnd]
    · simp
    · intro l hl
      rw [List.append_assoc] at hl
      rcases List.mem_append.mp hl with h1 | h1
      · exact (htail l h1).2
      · rcases List.mem_append.mp h1 with h2 | h2
        · simp only [List.mem_cons, List.not_mem_nil, or_false] at h2
          subst h2
          exact isEndLine_endBoundary time
        · have hs : splitNl ([] : List Char) = [[]] := rfl
          rw [hs] at h2
          simp only [List.mem_cons, List.not_mem_nil, or_false] at h2
          subst h2
          decide
  · rfl

/-- C6 witness. -/
theorem c6_gracefulExit_amended_witness :
    parseSessionLog (gracefulExit
        (encodeLog [CommandEntry.mk (chars "10:00:00") (chars "ls") [chars "a.txt"]] ++
          (([chars "=== [10:00:05] COMMAND: make", chars "compiling"].map
            (fun l => l ++ nl)).flatten)) (chars "10:00:06")).1 =
      [CommandEntry.mk (chars "10:00:00") (chars "ls") [chars "a.txt"]] :=
  (c6_gracefulExit_amended (by decide) (by decide) (by decide)).1

/-- C3. A `start` against a state store already recording an active session
fails with the conflict exit (code 1) as its only effect: no child process is
spawned, no state is written, no log text appended, and the stored record is
returned unaltered; and for every store content the store holds at most one
`ActiveSession` record after `start`. -/
theorem c3_start_conflict (s : ActiveSession) (pid : Nat) (date time : List Char) :
    startAction (some s) pid date time = ([Effect.exitCode 1], some s) ∧
    (∀ cmd, Effect.spawnChild cmd ∉ (startAction (some s) pid date time).1) ∧
    (∀ s2, Effect.writeState s2 ∉ (startAction (some s) pid date time).1) ∧
    (∀ tx, Effect.appendLog tx ∉ (startAction (some s) pid date time).1) ∧
    (∀ st : Option ActiveSession, sessionCount (startAction st pid date time).2 ≤ 1) := by
  refine ⟨rfl, ?_, ?_, ?_, ?_⟩
  · intro cmd hmem
    simp [startAction] at hmem
  · intro s2 hmem
    simp [startAction] at hmem
  · intro tx hmem
    simp [startAction] at hmem
  · intro st
    cases st <;> simp [startAction, sessionCount]

/-- C5. `stop` with no recorded session reports not-found and exits without
creating a state file; with a recorded session it signals the recorded pid and
clears the state whether or not signal delivery succeeded — the state store is
empty after every `stop`. -/
theorem c5_stop_clears (killOk : Bool) :
    stopAction none killOk = (StopOutcome.notFound, [Effect.exitCode 1], none) ∧
    (∀ s : ActiveSession, stopAction (some s) killOk =
      (StopOutcome.stopped s.pid killOk, [Effect.killPid s.pid, Effect.clearState], none)) ∧
    (∀ stored : Option ActiveSession, (stopAction stored killOk).2.2 = none) := by
  refine ⟨rfl, fun s => rfl, ?_⟩
  intro stored
  cases stored <;> rfl

theorem isPre_stable {sep y : List Char} (r : List Char) (h : sep.length ≤ y.length) :
    isPre sep (y ++ r) = isPre sep y := by
  induction sep generalizing y with
  | nil => simp [isPre]
  | cons s sep₁ ih =>
    cases y with
    | nil => simp at h
    | cons b y₁ =>
      simp only [List.cons_append, isPre]
      by_cases hsb : s = b
      · simp only [hsb, if_true]
        exact ih (by simpa using Nat.le_of_succ_le_succ h)
      · simp [hsb]

theorem isPre_crossCh {sep y b : List Char} {ch : Char}
    (h : sep.all (fun c => c ≠ ch) = true) :
    isPre sep (y ++ ch :: b) = isPre sep y := by
  by_cases hlen : sep.length ≤ y.length
  · exact isPre_stable _ hlen
  · push_neg at hlen
    have h1 : isPre sep y = false := by
      rw [Bool.eq_false_iff]
      intro hp
      exact absurd (isPre_iff.mp hp).length_le (by omega)
    have h2 : isPre sep (y ++ ch :: b) = false := by
      rw [Bool.eq_false_iff]
      intro hp
      have hpp := isPre_iff.mp hp
      have hy : y ++ [ch] <+: y ++ ch :: b := ⟨b, by simp⟩
      have hsub := List.prefix_of_prefix_length_le hy hpp (by simp; omega)
      have hmem : ch ∈ sep := hsub.subset (by simp)
      simp only [List.all_eq_true, decide_eq_true_eq] at h
      exact h ch hmem rfl
    rw [h1, h2]

theorem containsSub_chSplit {sep a b : List Char} {ch : Char}
    (h : sep.all (fun c => c ≠ ch) = true) (hne : sep ≠ []) :
    containsSub (a ++ ch :: b) sep = (containsSub a sep || containsSub b sep) := by
  induction a with
  | nil =>
    obtain ⟨s, rest, hsep⟩ : ∃ s rest, sep = s :: rest := by
      cases sep with
      | nil => exact absurd rfl hne
      | cons s rest => exact ⟨s, rest, rfl⟩
    subst hsep
    have hs : ¬ (s = ch) := by
      simp only [List.all_cons, Bool.and_eq_true, decide_eq_true_eq] at h
      exact h.1
    have hsc : ¬ (s = ch) → isPre (s :: rest) (ch :: b) = false := by
      intro hne2
      simp [isPre, fun hh : s = ch => hne2 hh]
    simp [containsSub, hsc hs]
  | cons c a₁ ih =>
    have hcross : isPre sep ((c :: a₁) ++ ch :: b) = isPre sep (c :: a₁) := isPre_crossCh h
    simp only [List.cons_append] at hcross
    simp only [List.cons_append, containsSub, List.append_eq, hcross, ih, Bool.or_assoc]

theorem containsSub_headFree {t : List Char} {n₀ : Char} {rest : List Char}
    (h : ∀ x ∈ t, x ≠ n₀) : containsSub t (n₀ :: rest) = false := by
  have := @containsSub_absent_append t [] (n₀ :: rest) n₀ rest rfl h (by simp [containsSub])
  simpa using this

theorem jsSplitAux_fuel {sep : List Char} : ∀ (f₁ f₂ : Nat) (cs acc : List Char),
    cs.length ≤ f₁ → cs.length ≤ f₂ →
    jsSplitAux sep f₁ cs acc = jsSplitAux sep f₂ cs acc := by
  intro f₁
  induction f₁ with
  | zero =>
    intro f₂ cs acc h1 h2
    have hcs : cs = [] := by
      cases cs with
      | nil => rfl
      | cons c t => simp at h1
    subst hcs
    cases f₂ <;> simp [jsSplitAux]
  | succ f ih =>
    intro f₂ cs acc h1 h2
    cases cs with
    | nil => cases f₂ <;> simp [jsSplitAux]
    | cons c cs₁ =>
      obtain ⟨g, rfl⟩ : ∃ g, f₂ = g + 1 := by
        cases f₂ with
        | zero => simp at h2
        | succ g => exact ⟨g, rfl⟩
      simp only [jsSplitAux]
      by_cases hp : isPre sep (c :: cs₁) = true
      · simp only [hp, if_true]
        congr 1
        apply ih
        · have hd := List.length_drop (sep.length - 1) cs₁
          simp only [List.length_cons] at h1
          omega
        · have hd := List.length_drop (sep.length - 1) cs₁
          simp only [List.length_cons] at h2
          omega
      · simp only [Bool.not_eq_true] at hp
        simp only [hp, Bool.false_eq_true, if_false]
        apply ih
        · simp only [List.length_cons] at h1
          omega
        · simp only [List.length_cons] at h2
          omega

theorem jsSplitAux_noSep {sep : List Char} : ∀ (cs : List Char) (fuel : Nat) (acc : List Char),
    containsSub cs sep = false → jsSplitAux sep fuel cs acc = [acc.reverse ++ cs] := by
  intro cs
  induction cs with
  | nil =>
    intro fuel acc h
    cases fuel <;> simp [jsSplitAux]
  | cons c cs₁ ih =>
    intro fuel acc h
    simp only [containsSub, Bool.or_eq_false_iff] at h
    cases fuel with
    | zero => simp [jsSplitAux]
    | succ f =>
      simp only [jsSplitAux, h.1, Bool.false_eq_true, if_false]
      rw [ih f (c :: acc) h.2]
      simp

theorem jsSplitAux_skip {sep : List Char} {s₀ : Char} {sep₀ : List Char}
    (hsep : sep = s₀ :: sep₀) : ∀ (x r acc : List Char) (fuel : Nat),
    (x ++ (sep ++ r)).length ≤ fuel → noSepWithin sep x = true →
    jsSplitAux sep fuel (x ++ (sep ++ r)) acc =
      (acc.reverse ++ x) :: jsSplitAux sep r.length r [] := by
  intro x
  induction x with
  | nil =>
    intro r acc fuel hf hns
    simp only [List.nil_append]
    rw [hsep]
    cases fuel with
    | zero =>
      exfalso
      rw [hsep] at hf
      simp at hf
    | succ f =>
      have hpre : isPre (s₀ :: sep₀) (s₀ :: (sep₀ ++ r)) = true := by
        have hsh : s₀ :: (sep₀ ++ r) = (s₀ :: sep₀) ++ r := by simp
        rw [hsh]
        exact isPre_self_append _ _
      simp only [List.cons_append, jsSplitAux, List.append_eq, hpre, if_true]
      have hdrop : List.drop ((s₀ :: sep₀).length - 1) (sep₀ ++ r) = r := by
        simp only [List.length_cons, Nat.add_sub_cancel]
        exact List.drop_left _ _
      rw [hdrop, ← hsep]
      have hr : r.length ≤ f := by
        rw [hsep] at hf
        simp only [List.cons_append, List.length_cons, List.length_append] at hf
        omega
      rw [jsSplitAux_fuel f r.length r [] hr (Nat.le_refl _)]
      simp
  | cons a x₁ ih =>
    intro r acc fuel hf hns
    simp only [noSepWithin, Bool.and_eq_true, Bool.not_eq_true'] at hns
    cases fuel with
    | zero =>
      exfalso
      simp at hf
    | succ f =>
      have hfalse : isPre sep (a :: (x₁ ++ (sep ++ r))) = false := by
        have hsh : a :: (x₁ ++ (sep ++ r)) = ((a :: x₁) ++ sep) ++ r := by
          simp [List.append_assoc]
        rw [hsh, isPre_stable _ (by simp [hsep]; omega)]
        exact hns.1
      simp only [List.cons_append, jsSplitAux, List.append_eq, hfalse, Bool.false_eq_true,
        if_false]
      rw [ih r (a :: acc) f (by simp at hf ⊢; omega) hns.2]
      simp

theorem jsSplit_skip {sep : List Char} {s₀ : Char} {sep₀ : List Char}
    (hsep : sep = s₀ :: sep₀) (x r : List Char) (hns : noSepWithin sep x = true) :
    jsSplit sep (x ++ (sep ++ r)) = x :: jsSplit sep r := by
  show jsSplitAux sep (x ++ (sep ++ r)).length (x ++ (sep ++ r)) [] = _
  rw [jsSplitAux_skip hsep x r [] _ (Nat.le_refl _) hns]
  simp [jsSplit]

theorem jsSplit_noSep {sep cs : List Char} (h : containsSub cs sep = false) :
    jsSplit sep cs = [cs] := by
  show jsSplitAux sep cs.length cs [] = [cs]
  rw [jsSplitAux_noSep cs cs.length [] h]
  simp

theorem noSepWithin_true_of {sep : List Char} (hall : sep.all (fun c => c ≠ '\n') = true) :
    ∀ (x y : List Char), x = y ++ ['\n'] →
    containsSub x sep = false → noSepWithin sep x = true := by
  intro x
  induction x with
  | nil => intro y hx hc; simp [noSepWithin]
  | cons c rest ih =>
    intro y hx hc
    simp only [noSepWithin, Bool.and_eq_true, Bool.not_eq_true']
    constructor
    · have hsh : (c :: rest) ++ sep = y ++ '\n' :: sep := by
        rw [hx]
        simp
      rw [hsh, isPre_crossCh hall, Bool.eq_false_iff]
      intro hp
      have hyx : y <+: c :: rest := ⟨['\n'], hx.symm⟩
      have hinf : sep <:+: c :: rest := ((isPre_iff.mp hp).trans hyx).isInfix
      rw [containsSub_iff.mpr hinf] at hc
      exact Bool.true_eq_false.mp hc
    · cases y with
      | nil =>
        have hr : rest = [] := by
          simpa using congrArg List.tail hx
        rw [hr]
        simp [noSepWithin]
      | cons y₀ y₁ =>
        have hr : rest = y₁ ++ ['\n'] := by
          have := congrArg List.tail hx
          simpa using this
        have hcr : containsSub rest sep = false := by
          simp only [containsSub, Bool.or_eq_false_iff] at hc
          exact hc.2
        exact ih y₁ hr hcr

theorem flat_endsNl : ∀ (outs : List (List Char)) (w : List Char),
    (∃ y, w = y ++ ['\n']) →
    ∃ y, w ++ (outs.map (fun o => o ++ nl)).flatten = y ++ ['\n'] := by
  intro outs
  induction outs with
  | nil =>
    intro w hw
    simpa using hw
  | cons o os ih =>
    intro w hw
    have hsh : w ++ ((o :: os).map (fun o => o ++ nl)).flatten =
        (w ++ (o ++ ['\n'])) ++ (os.map (fun o => o ++ nl)).flatten := by
      simp [nl, List.append_assoc]
    rw [hsh]
    exact ih _ ⟨w ++ o, by simp⟩

theorem partialBlock_endsNl (e : CommandEntry) (pre : List Char) :
    ∃ y, pre ++ partialBlock e = y ++ ['\n'] := by
  have hsh : pre ++ partialBlock e =
      (pre ++ headerLine e ++ ['\n']) ++ (e.output.map (fun o => o ++ nl)).flatten := by
    simp [partialBlock, nl, List.append_assoc]
  rw [hsh]
  exact flat_endsNl _ _ ⟨pre ++ headerLine e, rfl⟩

theorem entrySegOK_parts {e : CommandEntry} (h : entrySegOK e = true) :
    entryOK e = true ∧ timeDigits e.time = true ∧ e.cmd ≠ [] ∧
    containsSub e.cmd endMark = false ∧ containsSub e.cmd (chars "OUTPUT:") = false ∧
    (∀ o ∈ e.output, containsSub o endMark = false ∧
      containsSub o (chars "OUTPUT:") = false) := by
  simp only [entrySegOK, Bool.and_eq_true, Bool.not_eq_true', List.all_eq_true] at h
  obtain ⟨⟨⟨⟨⟨h1, h2⟩, h3⟩, h4⟩, h5⟩, h6⟩ := h
  refine ⟨h1, h2, ?_, h4, h5, fun o ho => (h6 o ho).imp id id⟩
  intro heq
  rw [heq] at h3
  simp at h3

theorem timeDigits_ne {t : List Char} (h : timeDigits t = true) {d : Char}
    (hd : d.isDigit = false) (hd2 : d ≠ ':') : ∀ x ∈ t, x ≠ d := by
  simp only [timeDigits, List.all_eq_true, Bool.or_eq_true, decide_eq_true_eq] at h
  intro x hx heq
  subst heq
  rcases h x hx with h1 | h1
  · rw [h1] at hd
    simp at hd
  · exact hd2 h1

theorem containsSub_outFlat_false {outs : List (List Char)} {n₀ : Char} {nrest : List Char}
    (hnl : (n₀ :: nrest).all (fun c => c ≠ '\n') = true)
    (h : ∀ o ∈ outs, containsSub o (n₀ :: nrest) = false) :
    containsSub ((outs.map (fun o => o ++ nl)).flatten) (n₀ :: nrest) = false := by
  induction outs with
  | nil => simp [containsSub]
  | cons o os ih =>
    have hsh : (((o :: os).map (fun o => o ++ nl)).flatten) =
        o ++ '\n' :: ((os.map (fun o => o ++ nl)).flatten) := by
      simp [nl, List.append_assoc]
    rw [hsh, containsSub_chSplit hnl (by simp)]
    rw [h o (List.mem_cons_self o os), ih (fun x hx => h x (List.mem_cons_of_mem o hx))]
    rfl

theorem containsSub_header_endMark {e : CommandEntry} (hseg : entrySegOK e = true) :
    containsSub (headerLine e) endMark = false := by
  obtain ⟨_, htd, _, hcm, _, _⟩ := entrySegOK_parts hseg
  have hsh : headerLine e =
      chars "=== " ++ '[' :: (e.time ++ ']' :: (chars " COMMAND: " ++ e.cmd)) := by
    have h1 : chars "=== [" = chars "=== " ++ ['['] := by decide
    have h2 : chars "] COMMAND: " = ']' :: chars " COMMAND: " := rfl
    simp [headerLine, h1, h2, List.append_assoc]
  rw [hsh]
  have hlb : endMark.all (fun c => c ≠ '[') = true := by decide
  have hrb : endMark.all (fun c => c ≠ ']') = true := by decide
  have hne : endMark ≠ [] := by decide
  have hEcons : endMark = '=' :: chars "== END ===" := rfl
  rw [containsSub_chSplit hlb hne, containsSub_chSplit hrb hne]
  have h3 : containsSub (chars "=== ") endMark = false := by decide
  have h4 : containsSub e.time endMark = false := by
    rw [hEcons]
    exact containsSub_headFree (timeDigits_ne htd (by decide) (by decide))
  have h5 : containsSub (chars " COMMAND: " ++ e.cmd) endMark = false := by
    rw [hEcons] at hcm ⊢
    exact containsSub_absent_append rfl (by decide) hcm
  rw [h3, h4, h5]
  rfl

theorem containsSub_body_endMark {e : CommandEntry} {pre : List Char}
    (hseg : entrySegOK e = true) (hpre : pre = [] ∨ pre = nl ++ nl) :
    containsSub (pre ++ partialBlock e) endMark = false := by
  obtain ⟨_, _, _, _, _, houts⟩ := entrySegOK_parts hseg
  have hnl : endMark.all (fun c => c ≠ '\n') = true := by decide
  have hne : endMark ≠ [] := by decide
  have hsh : pre ++ partialBlock e =
      (pre ++ headerLine e) ++ '\n' :: ((e.output.map (fun o => o ++ nl)).flatten) := by
    simp [partialBlock, nl, List.append_assoc]
  rw [hsh, containsSub_chSplit hnl hne]
  have h1 : containsSub (pre ++ headerLine e) endMark = false := by
    rcases hpre with hp | hp
    · rw [hp]
      simpa using containsSub_header_endMark hseg
    · rw [hp]
      have hsh2 : (nl ++ nl) ++ headerLine e = [] ++ '\n' :: ([] ++ '\n' :: headerLine e) := by
        simp [nl]
      rw [hsh2, containsSub_chSplit hnl hne, containsSub_chSplit hnl hne]
      have hh := containsSub_header_endMark hseg
      have hemp : containsSub [] endMark = false := by decide
      rw [hemp, hh]
      rfl
  have h2 : containsSub ((e.output.map (fun o => o ++ nl)).flatten) endMark = false := by
    have hEcons : endMark = '=' :: chars "== END ===" := rfl
    rw [hEcons]
    exact containsSub_outFlat_false (by decide) (fun o ho => hEcons ▸ (houts o ho).1)
  rw [h1, h2]
  rfl

theorem jsSplit_encodeLog {es : List CommandEntry} (h : es.all entrySegOK = true) :
    ∀ pre, (pre = [] ∨ pre = nl ++ nl) →
    jsSplit endMark (pre ++ encodeLog es) = segsFrom pre es := by
  induction es with
  | nil =>
    intro pre hpre
    have h0 : containsSub pre endMark = false := by
      rcases hpre with hp | hp <;> rw [hp] <;> decide
    show jsSplit endMark (pre ++ encodeLog []) = segsFrom pre []
    have he : encodeLog [] = [] := rfl
    rw [he, List.append_nil, jsSplit_noSep h0]
    rfl
  | cons e es ih =>
    intro pre hpre
    simp only [List.all_cons, Bool.and_eq_true] at h
    have hsh : pre ++ encodeLog (e :: es) =
        (pre ++ partialBlock e) ++ (endMark ++ ((nl ++ nl) ++ encodeLog es)) := by
      have hee : encodeLog (e :: es) = encodeEntry e ++ encodeLog es := by
        simp [encodeLog]
      rw [hee]
      simp [encodeEntry, partialBlock, nl, List.append_assoc]
    rw [hsh]
    obtain ⟨yb, hyb⟩ := partialBlock_endsNl e pre
    have hns : noSepWithin endMark (pre ++ partialBlock e) = true :=
      noSepWithin_true_of (by decide) _ yb hyb
        (containsSub_body_endMark h.1 hpre)
    have hE : endMark = '=' :: chars "== END ===" := rfl
    rw [jsSplit_skip hE _ _ hns, ih h.2 (nl ++ nl) (Or.inr rfl)]
    rfl

theorem head_not_ws {c₀ : Char} {c₁ : List Char} (h : jsTrim (c₀ :: c₁) = c₀ :: c₁) :
    jsWs c₀ = false := by
  have hd := dropWhile_eq_self_of_trimStable h
  by_cases hw : jsWs c₀ = true
  · exfalso
    have h1 : List.dropWhile jsWs (c₀ :: c₁) = List.dropWhile jsWs c₁ := by
      simp [List.dropWhile_cons, hw]
    have h2 := dropWhile_length_le jsWs c₁
    rw [h1] at hd
    have := congrArg List.length hd
    simp at this
    omega
  · simpa using hw

theorem takeWhile_noNl {c body : List Char} (h : noNl c = true) :
    List.takeWhile (fun d => d ≠ '\n') (c ++ '\n' :: body) = c := by
  induction c with
  | nil => simp [List.takeWhile_cons]
  | cons a c₁ ih =>
    simp only [noNl, List.all_cons, Bool.and_eq_true, decide_eq_true_eq] at h
    have ih2 := ih (by simpa [noNl] using h.2)
    simp only [List.cons_append, List.takeWhile_cons, decide_eq_true_eq, h.1, if_true, ih2]
    simp [h.1]

theorem upToSub_absent {needle y : List Char} (h : containsSub y needle = false) :
    upToSub needle y = y := by
  induction y with
  | nil => simp [upToSub]
  | cons c rest ih =>
    simp only [containsSub, Bool.or_eq_false_iff] at h
    simp [upToSub, h.1, ih h.2]
theorem cmdCaptureLine_skip {w z : List Char} (hw : ∀ x ∈ w, x ≠ 'C') :
    cmdCaptureLine (w ++ z) = cmdCaptureLine z := by
  induction w with
  | nil => simp
  | cons c w₁ ih =>
    have hc : ¬ ('C' = c) := fun hh => hw c (List.mem_cons_self c w₁) hh.symm
    have hpre : isPre (chars "COMMAND:") (c :: (w₁ ++ z)) = false := by
      have hsh : chars "COMMAND:" = 'C' :: chars "OMMAND:" := rfl
      rw [hsh]
      simp [isPre, hc]
    show cmdCaptureLine (c :: (w₁ ++ z)) = cmdCaptureLine z
    rw [cmdCaptureLine, hpre]
    simp only [Bool.false_eq_true, if_false, Option.orElse]
    exact ih (fun x hx => hw x (List.mem_cons_of_mem c hx))

theorem searchCapture_skip {w z : List Char} (hw : ∀ x ∈ w, x ≠ 'C') :
    searchCapture (w ++ z) = searchCapture z := by
  induction w with
  | nil => simp
  | cons c w₁ ih =>
    have hc : ¬ ('C' = c) := fun hh => hw c (List.mem_cons_self c w₁) hh.symm
    have hpre : isPre (chars "COMMAND:") (c :: (w₁ ++ z)) = false := by
      have hsh : chars "COMMAND:" = 'C' :: chars "OMMAND:" := rfl
      rw [hsh]
      simp [isPre, hc]
    show searchCapture (c :: (w₁ ++ z)) = searchCapture z
    rw [searchCapture, hpre]
    simp only [Bool.false_eq_true, if_false, Option.orElse]
    exact ih (fun x hx => hw x (List.mem_cons_of_mem c hx))

theorem bracketTimeOpt_skip {w z : List Char} (hw : ∀ x ∈ w, x ≠ '[') :
    bracketTimeOpt (w ++ z) = bracketTimeOpt z := by
  induction w with
  | nil => simp
  | cons c w₁ ih =>
    have hc : c ≠ '[' := hw c (List.mem_cons_self c w₁)
    simp only [List.cons_append, bracketTimeOpt, hc, if_false]
    exact ih (fun x hx => hw x (List.mem_cons_of_mem c hx))

theorem cmdCaptureLine_at {c body : List Char} (hne : c ≠ []) (htr : jsTrim c = c)
    (hnl : noNl c = true) :
    cmdCaptureLine (chars "COMMAND:" ++ (' ' :: (c ++ '\n' :: body))) = some c := by
  obtain ⟨c₀, c₁, rfl⟩ : ∃ c₀ c₁, c = c₀ :: c₁ := by
    cases c with
    | nil => exact absurd rfl hne
    | cons a b => exact ⟨a, b, rfl⟩
  have hpre : isPre (chars "COMMAND:")
      (chars "COMMAND:" ++ (' ' :: (c₀ :: c₁ ++ '\n' :: body))) = true := isPre_self_append _ _
  have hC : chars "COMMAND:" ++ (' ' :: (c₀ :: c₁ ++ '\n' :: body)) =
      'C' :: (chars "OMMAND:" ++ (' ' :: (c₀ :: c₁ ++ '\n' :: body))) := rfl
  rw [hC] at hpre ⊢
  rw [cmdCaptureLine, hpre]
  have hdrop : List.drop 8 ('C' :: (chars "OMMAND:" ++ (' ' :: (c₀ :: c₁ ++ '\n' :: body)))) =
      ' ' :: (c₀ :: c₁ ++ '\n' :: body) := rfl
  simp only [if_true, hdrop]
  have hcw := head_not_ws htr
  have hws : jsWs ' ' = true := by decide
  simp only [List.takeWhile_cons, List.dropWhile_cons, hws, if_true, hcw, Bool.false_eq_true,
    if_false, List.isEmpty_cons, List.takeWhile_nil]
  have hdw : List.dropWhile jsWs (c₀ :: (c₁ ++ '\n' :: body)) =
      c₀ :: (c₁ ++ '\n' :: body) := by
    simp [List.dropWhile_cons, hcw]
  have htake : List.takeWhile (fun d => !decide (d = '\n')) (c₀ :: (c₁ ++ '\n' :: body)) =
      c₀ :: c₁ := by
    have hsh : c₀ :: (c₁ ++ '\n' :: body) = c₀ :: c₁ ++ '\n' :: body := by simp
    rw [hsh]
    simpa [decide_not] using @takeWhile_noNl (c₀ :: c₁) body hnl
  simp [Option.orElse, hdw, htake]

theorem searchCapture_at {c body : List Char} (hne : c ≠ []) (htr : jsTrim c = c)
    (hout : containsSub (c ++ '\n' :: body) (chars "OUTPUT:") = false) :
    searchCapture (chars "COMMAND:" ++ (' ' :: (c ++ '\n' :: body))) =
      some (c ++ '\n' :: body) := by
  obtain ⟨c₀, c₁, rfl⟩ : ∃ c₀ c₁, c = c₀ :: c₁ := by
    cases c with
    | nil => exact absurd rfl hne
    | cons a b => exact ⟨a, b, rfl⟩
  have hpre : isPre (chars "COMMAND:")
      (chars "COMMAND:" ++ (' ' :: (c₀ :: c₁ ++ '\n' :: body))) = true := isPre_self_append _ _
  have hC : chars "COMMAND:" ++ (' ' :: (c₀ :: c₁ ++ '\n' :: body)) =
      'C' :: (chars "OMMAND:" ++ (' ' :: (c₀ :: c₁ ++ '\n' :: body))) := rfl
  rw [hC] at hpre ⊢
  rw [searchCapture, hpre]
  have hdrop : List.drop 8 ('C' :: (chars "OMMAND:" ++ (' ' :: (c₀ :: c₁ ++ '\n' :: body)))) =
      ' ' :: (c₀ :: c₁ ++ '\n' :: body) := rfl
  simp only [if_true, hdrop]
  have hcw := head_not_ws htr
  have hws : jsWs ' ' = true := by decide
  simp only [List.takeWhile_cons, List.dropWhile_cons, hws, if_true, hcw, Bool.false_eq_true,
    if_false, List.isEmpty_cons, List.takeWhile_nil]
  have hdw : List.dropWhile jsWs (c₀ :: (c₁ ++ '\n' :: body)) =
      c₀ :: (c₁ ++ '\n' :: body) := by
    simp [List.dropWhile_cons, hcw]
  have hup : upToSub (chars "OUTPUT:") (c₀ :: (c₁ ++ '\n' :: body)) =
      c₀ :: (c₁ ++ '\n' :: body) := by
    apply upToSub_absent
    have hsh : c₀ :: (c₁ ++ '\n' :: body) = c₀ :: c₁ ++ '\n' :: body := by simp
    rw [hsh]
    exact hout
  simp [Option.orElse, hdw, hup]

theorem seg_scan {e : CommandEntry} {pre : List Char} (hseg : entrySegOK e = true)
    (hpre : pre = [] ∨ pre = nl ++ nl) :
    cmdCaptureLine (pre ++ partialBlock e) = some e.cmd ∧
    searchCapture (pre ++ partialBlock e) =
      some (e.cmd ++ '\n' :: (e.output.map (fun o => o ++ nl)).flatten) ∧
    bracketTimeOpt (pre ++ partialBlock e) = some e.time := by
  obtain ⟨hok, htd, hcne, hcend, hcout, houts⟩ := entrySegOK_parts hseg
  obtain ⟨ht, hcmd, _⟩ := entryOK_parts hok
  obtain ⟨hcnl, _, hctr⟩ := cmdOK_parts hcmd
  have hsh : pre ++ partialBlock e =
      (pre ++ (chars "=== [" ++ (e.time ++ chars "] "))) ++
        (chars "COMMAND:" ++ (' ' :: (e.cmd ++ '\n' ::
          (e.output.map (fun o => o ++ nl)).flatten))) := by
    have h1 : chars "] COMMAND: " = chars "] " ++ (chars "COMMAND:" ++ chars " ") := by decide
    have h2 : ∀ z : List Char, chars " " ++ z = ' ' :: z := fun z => rfl
    simp [partialBlock, headerLine, h1, h2, nl, List.append_assoc]
  have hW : ∀ x ∈ pre ++ (chars "=== [" ++ (e.time ++ chars "] ")), x ≠ 'C' := by
    intro x hx
    simp only [List.mem_append] at hx
    rcases hx with hx | hx | hx | hx
    · rcases hpre with hp | hp
      · rw [hp] at hx
        simp at hx
      · rw [hp] at hx
        have hh : ∀ y ∈ nl ++ nl, y ≠ 'C' := by decide
        exact hh x hx
    · have hh : ∀ y ∈ chars "=== [", y ≠ 'C' := by decide
      exact hh x hx
    · exact timeDigits_ne htd (by decide) (by decide) x hx
    · have hh : ∀ y ∈ chars "] ", y ≠ 'C' := by decide
      exact hh x hx
  have hout : containsSub (e.cmd ++ '\n' :: (e.output.map (fun o => o ++ nl)).flatten)
      (chars "OUTPUT:") = false := by
    have hOnl : (chars "OUTPUT:").all (fun c => c ≠ '\n') = true := by decide
    rw [containsSub_chSplit hOnl (by decide), hcout]
    have hO : chars "OUTPUT:" = 'O' :: chars "UTPUT:" := rfl
    rw [hO]
    rw [containsSub_outFlat_false (by decide) (fun o ho => hO ▸ (houts o ho).2)]
    rfl
  refine ⟨?_, ?_, ?_⟩
  · rw [hsh, cmdCaptureLine_skip hW]
    exact cmdCaptureLine_at hcne hctr hcnl
  · rw [hsh, searchCapture_skip hW]
    exact searchCapture_at hcne hctr hout
  · have hsh2 : pre ++ partialBlock e =
        (pre ++ chars "=== ") ++ ('[' :: (e.time ++ (']' ::
          (chars " COMMAND: " ++ (e.cmd ++ '\n' ::
            (e.output.map (fun o => o ++ nl)).flatten))))) := by
      have h1 : chars "=== [" = chars "=== " ++ ['['] := by decide
      have h2 : chars "] COMMAND: " = ']' :: chars " COMMAND: " := rfl
      simp [partialBlock, headerLine, h1, h2, nl, List.append_assoc]
    have hW2 : ∀ x ∈ pre ++ chars "=== ", x ≠ '[' := by
      intro x hx
      simp only [List.mem_append] at hx
      rcases hx with hx | hx
      · rcases hpre with hp | hp
        · rw [hp] at hx
          simp at hx
        · rw [hp] at hx
          have hh : ∀ y ∈ nl ++ nl, y ≠ '[' := by decide
          exact hh x hx
      · have hh : ∀ y ∈ chars "=== ", y ≠ '[' := by decide
        exact hh x hx
    rw [hsh2, bracketTimeOpt_skip hW2]
    have hcc := closeCapture_ends (chars " COMMAND: " ++ (e.cmd ++ '\n' ::
      (e.output.map (fun o => o ++ nl)).flatten)) ht
    simp [bracketTimeOpt, hcc]

theorem replaySeg_fast_noDelay (s : List Char) :
    (replaySeg true s).countP (fun ev => ev == ReplayEv.delay) = 0 := by
  cases h : cmdCaptureLine s with
  | none => simp [replaySeg, h]
  | some cap =>
    simp only [replaySeg, h, if_true]
    have hne : (ReplayEv.printEntry ((bracketTimeOpt s).getD (chars "??:??:??")) (jsTrim cap)
        (jsTrim (List.intercalate nl ((splitNl s).filter (fun l =>
          !containsSub l (chars "COMMAND:") && !containsSub l (chars "===") &&
            !(jsTrim l).isEmpty)))) == ReplayEv.delay) = false := by
      rw [beq_eq_false_iff_ne]
      intro hEq
      cases hEq
    simp [List.countP_cons, hne]

theorem countDelays_segsFrom {es : List CommandEntry} (h : es.all entrySegOK = true) :
    ∀ pre, (pre = [] ∨ pre = nl ++ nl) →
    (((segsFrom pre es).map (replaySeg false)).flatten).countP
      (fun ev => ev == ReplayEv.delay) = es.length := by
  induction es with
  | nil =>
    intro pre hpre
    have hc : cmdCaptureLine pre = none := by
      rcases hpre with hp | hp <;> rw [hp] <;> decide
    simp [segsFrom, replaySeg, hc]
  | cons e es ih =>
    intro pre hpre
    simp only [List.all_cons, Bool.and_eq_true] at h
    have hcap := (seg_scan h.1 hpre).1
    simp only [segsFrom, List.map_cons, List.flatten_cons, List.countP_append]
    rw [ih h.2 (nl ++ nl) (Or.inr rfl)]
    have h2 : ∀ t c o, ((ReplayEv.printEntry t c o : ReplayEv) == ReplayEv.delay) = false := by
      intro t c o
      rw [beq_eq_false_iff_ne]
      intro hEq
      cases hEq
    simp only [replaySeg, hcap, Bool.false_eq_true, if_false, List.countP_cons, h2,
      List.countP_nil, List.length_cons]
    exact Nat.add_comm 1 es.length

theorem searchHits_segsFrom {pattern : List Char} : ∀ {es : List CommandEntry},
    es.all entrySegOK = true → ∀ pre, (pre = [] ∨ pre = nl ++ nl) →
    ((segsFrom pre es).filterMap (fun entry =>
      match searchCapture entry with
      | none => none
      | some cap =>
        let cmd := jsTrim cap
        if containsSub (lowerL cmd) (lowerL pattern) then
          some ((bracketTimeOpt entry).getD (chars "??:??:??"), cmd)
        else none)) =
    (es.filter (fun e => containsSub (lowerL (searchText e)) (lowerL pattern))).map
      (fun e => (e.time, searchText e)) := by
  intro es
  induction es with
  | nil =>
    intro h pre hpre
    have hc : searchCapture pre = none := by
      rcases hpre with hp | hp <;> rw [hp] <;> decide
    simp [segsFrom, hc]
  | cons e es ih =>
    intro h pre hpre
    simp only [List.all_cons, Bool.and_eq_true] at h
    obtain ⟨hcap, hsc, hbt⟩ := seg_scan h.1 hpre
    have hst : searchText e =
        jsTrim (e.cmd ++ '\n' :: (e.output.map (fun o => o ++ nl)).flatten) := rfl
    simp only [segsFrom, List.filterMap_cons, hsc, hbt, Option.getD_some, List.filter_cons,
      ← hst]
    by_cases hcond : containsSub (lowerL (searchText e)) (lowerL pattern) = true
    · simp only [hcond, if_true, List.map_cons]
      rw [ih h.2 (nl ++ nl) (Or.inr rfl)]
    · simp only [Bool.not_eq_true] at hcond
      simp only [hcond, Bool.false_eq_true, if_false]
      rw [ih h.2 (nl ++ nl) (Or.inr rfl)]

/-- C7 counterexample. The inter-entry delay claim fails as stated: replaying a
one-entry log in timed mode performs one suspension, not N−1 = 0 — the delay
runs after every replayed entry, including the last. -/
theorem c7_replay_delays_counterexample :
    (parseSessionLog (encodeLog
      [CommandEntry.mk (chars "09:00:00") (chars "ls") [chars "a.txt"]])).length = 1 ∧
    replayDelayCount (encodeLog
      [CommandEntry.mk (chars "09:00:00") (chars "ls") [chars "a.txt"]]) false = 1 ∧
    replayDelayCount (encodeLog
        [CommandEntry.mk (chars "09:00:00") (chars "ls") [chars "a.txt"]]) false ≠
      (parseSessionLog (encodeLog
        [CommandEntry.mk (chars "09:00:00") (chars "ls") [chars "a.txt"]])).length - 1 := by
  decide

/-- C7 (amended). Replay in fast mode performs zero suspensions on any input;
in timed mode it performs exactly one suspension per replayed entry — N
suspensions for a log of N entries, one after each entry including the last,
rather than only between consecutive entries. -/
theorem c7_replay_delays_amended {es : List CommandEntry} (h : es.all entrySegOK = true)
    (content : List Char) :
    replayDelayCount content true = 0 ∧
    replayDelayCount (encodeLog es) false = es.length := by
  constructor
  · have hz : ∀ L : List (List Char),
        ((L.map (replaySeg true)).flatten).countP (fun ev => ev == ReplayEv.delay) = 0 := by
      intro L
      induction L with
      | nil => simp
      | cons s L ih => simp [List.countP_append, replaySeg_fast_noDelay, ih]
    exact hz _
  · show ((jsSplit endMark (encodeLog es)).map (replaySeg false)).flatten.countP
      (fun ev => ev == ReplayEv.delay) = es.length
    have hs := jsSplit_encodeLog h [] (Or.inl rfl)
    simp only [List.nil_append] at hs
    rw [hs]
    exact countDelays_segsFrom h [] (Or.inl rfl)

/-- C7 witness. -/
theorem c7_replay_delays_witness :
    replayDelayCount (chars "no entries here") true = 0 ∧
    replayDelayCount (encodeLog
      [CommandEntry.mk (chars "09:00:00") (chars "ls") [chars "a.txt"],
       CommandEntry.mk (chars "09:00:05") (chars "pwd") []]) false = 2 :=
  c7_replay_delays_amended (by decide) (chars "no entries here")

/-- C8 counterexample. Search does not match on the command text alone: its
capture runs to the end of the segment, so searching `git` on a log whose
entries are `git status` (clean output) and `npm install` (whose *output*
mentions git) prints both entries, not only `git status`. -/
theorem c8_search_counterexample :
    (searchHits (encodeLog
      [CommandEntry.mk (chars "10:00:00") (chars "git status") [chars "on branch main"],
       CommandEntry.mk (chars "10:01:00") (chars "npm install")
         [chars "cloning git repo"]]) (chars "git")).length = 2 ∧
    searchHits (encodeLog
      [CommandEntry.mk (chars "10:00:00") (chars "git status") [chars "on branch main"],
       CommandEntry.mk (chars "10:01:00") (chars "npm install")
         [chars "cloning git repo"]]) (chars "git") ≠
      [(chars "10:00:00", chars "git status" ++ nl ++ chars "on branch main")] := by
  decide

/-- C8 (amended). `search` prints an entry if and only if the entry's
command-and-output text — everything from after the command marker to the end
of its segment, trimmed — contains the pattern case-insensitively; output lines
therefore do affect which entries are printed. -/
theorem c8_search_amended {es : List CommandEntry} (h : es.all entrySegOK = true)
    (pattern : List Char) :
    searchHits (encodeLog es) pattern =
      (es.filter (fun e => containsSub (lowerL (searchText e)) (lowerL pattern))).map
        (fun e => (e.time, searchText e)) := by
  show ((jsSplit endMark (encodeLog es)).filterMap _) = _
  have hs := jsSplit_encodeLog h [] (Or.inl rfl)
  simp only [List.nil_append] at hs
  rw [hs]
  exact searchHits_segsFrom h [] (Or.inl rfl)

/-- C8 witness. -/
theorem c8_search_amended_witness :
    searchHits (encodeLog
      [CommandEntry.mk (chars "10:00:00") (chars "git status") [chars "on branch main"],
       CommandEntry.mk (chars "10:01:00") (chars "npm install") [chars "done"]])
      (chars "git") =
      [(chars "10:00:00", chars "git status" ++ nl ++ chars "on branch main")] := by
  rw [c8_search_amended (by decide) (chars "git")]
  decide

/-! ### Masking lemmas (claim C2)

Helper facts about `globalReplaceB` and the four matchers, followed by three
masked families: a bare 40-character hexadecimal string, a `token=<value>`
pair, and a `<local>@example.com` address. -/

theorem takeWhile_all {p : Char → Bool} {l : List Char} (h : l.all p = true) :
    l.takeWhile p = l := by
  induction l with
  | nil => rfl
  | cons c cs ih =>
    simp only [List.all_cons, Bool.and_eq_true] at h
    simp [List.takeWhile_cons, h.1, ih h.2]

theorem dropWhile_all_neg {l : List Char} (h : l.all (fun c => !jsWs c) = true) :
    l.dropWhile jsWs = l := by
  cases l with
  | nil => rfl
  | cons c cs =>
    simp only [List.all_cons, Bool.and_eq_true, Bool.not_eq_true'] at h
    simp [List.dropWhile_cons, h.1]

theorem globalReplaceB_nil {m : Option Char → List Char → Option (List Char × Char × List Char)}
    (f : Nat) (p : Option Char) : globalReplaceB m f p [] = [] := by
  cases f <;> rfl

theorem globalReplaceB_id {m : Option Char → List Char → Option (List Char × Char × List Char)} :
    ∀ (fuel : Nat) (prev : Option Char) (cs : List Char),
    (∀ (prev2 : Option Char) (c : Char) (s : List Char), (c :: s) <:+ cs →
      m prev2 (c :: s) = none) →
    globalReplaceB m fuel prev cs = cs := by
  intro fuel
  induction fuel with
  | zero => intro prev cs h; rfl
  | succ f ih =>
    intro prev cs h
    cases cs with
    | nil => rfl
    | cons c cs₁ =>
      have hc := h prev c cs₁ (List.suffix_refl _)
      show (match m prev (c :: cs₁) with
        | some (rep, lastC, rest) => rep ++ globalReplaceB m f (some lastC) rest
        | none => c :: globalReplaceB m f (some c) cs₁) = c :: cs₁
      rw [hc]
      rw [ih (some c) cs₁ (fun p2 d s hs => h p2 d s (hs.trans (List.suffix_cons c cs₁)))]

theorem runRule_id {m : Option Char → List Char → Option (List Char × Char × List Char)}
    {cs : List Char}
    (h : ∀ (prev : Option Char) (c : Char) (s : List Char), (c :: s) <:+ cs →
      m prev (c :: s) = none) :
    runRule m cs = cs :=
  globalReplaceB_id cs.length none cs h

theorem ciPrefix_mem : ∀ {p cs k rest : List Char}, ciPrefix p cs = some (k, rest) →
    ∀ x ∈ rest, x ∈ cs := by
  intro p
  induction p with
  | nil =>
    intro cs k rest h x hx
    simp only [ciPrefix, Option.some.injEq, Prod.mk.injEq] at h
    rw [← h.2] at hx
    exact hx
  | cons p ps ih =>
    intro cs k rest h x hx
    cases cs with
    | nil => simp [ciPrefix] at h
    | cons c cs₁ =>
      simp only [ciPrefix] at h
      by_cases hce : ciEq p c = true
      · rw [hce] at h
        simp only [if_true] at h
        cases hps : ciPrefix ps cs₁ with
        | none => rw [hps] at h; simp at h
        | some pr =>
          rw [hps] at h
          simp only [Option.map_some', Option.some.injEq, Prod.mk.injEq] at h
          have hrest : rest = pr.2 := h.2.symm
          have hx2 := @ih cs₁ pr.1 pr.2 (by rw [hps]) x (hrest ▸ hx)
          exact List.mem_cons_of_mem c hx2
      · simp only [Bool.not_eq_true] at hce
        rw [hce] at h
        simp at h

theorem kwAlt_mem {cs kw rest : List Char} (h : kwAlt cs = some (kw, rest)) :
    ∀ x ∈ rest, x ∈ cs := by
  have hstep : ∀ (o : Option (List Char × List Char)) (f : Unit → Option (List Char × List Char)),
      o.orElse f = some (kw, rest) → o = some (kw, rest) ∨ (o = none ∧ f () = some (kw, rest)) := by
    intro o f ho
    cases o with
    | some v =>
      left
      exact ho
    | none =>
      right
      exact ⟨rfl, ho⟩
  simp only [kwAlt] at h
  rcases hstep _ _ h with h1 | ⟨_, h⟩
  · exact ciPrefix_mem h1
  rcases hstep _ _ h with h1 | ⟨_, h⟩
  · exact ciPrefix_mem h1
  rcases hstep _ _ h with h1 | ⟨_, h⟩
  · exact ciPrefix_mem h1
  rcases hstep _ _ h with h1 | ⟨_, h⟩
  · exact ciPrefix_mem h1
  exact ciPrefix_mem h

theorem m1_none {l : List Char} (h : ∀ x ∈ l, x ≠ '=') (prev : Option Char) :
    m1 prev l = none := by
  simp only [m1]
  split
  · rfl
  rename_i pr kw rest1 hkw
  split
  · rename_i rest3 heq
    exfalso
    have h1 : '=' ∈ List.dropWhile jsWs rest1 := by
      rw [heq]
      exact List.mem_cons_self _ _
    have h2 : '=' ∈ rest1 := (List.dropWhile_sublist _).subset h1
    exact h '=' (kwAlt_mem hkw _ h2) rfl
  · rfl

theorem m2_none {l : List Char} (h : ∀ x ∈ l, x ≠ '@') (prev : Option Char) :
    m2 prev l = none := by
  simp only [m2]
  by_cases hL : (l.takeWhile localChar).isEmpty = true
  · simp [hL]
  · simp only [Bool.not_eq_true] at hL
    simp only [hL, Bool.false_eq_true, if_false]
    split
    · rename_i rest heq
      exfalso
      have h1 : '@' ∈ l.drop (l.takeWhile localChar).length := by
        rw [heq]
        exact List.mem_cons_self _ _
      exact h '@' (List.drop_subset _ _ h1) rfl
    · rfl

theorem hexChar_isWordChar {c : Char} (hc : hexChar c = true) : isWordChar c = true := by
  simp only [hexChar, Bool.or_eq_true, Bool.and_eq_true, decide_eq_true_eq] at hc
  simp only [isWordChar, Bool.or_eq_true, Bool.and_eq_true, decide_eq_true_eq]
  rcases hc with (h | h) | h
  · exact Or.inl (Or.inr h)
  · exact Or.inl (Or.inl (Or.inl ⟨h.1, le_trans h.2 (by decide)⟩))
  · exact Or.inl (Or.inl (Or.inr ⟨h.1, le_trans h.2 (by decide)⟩))

theorem all_getLastD {p : Char → Bool} : ∀ {l : List Char} {d : Char},
    l.all p = true → p d = true → p (l.getLastD d) = true := by
  intro l
  induction l with
  | nil => intro d _ hd; exact hd
  | cons a t ih =>
    intro d hall hd
    rw [List.getLastD_cons]
    simp only [List.all_cons, Bool.and_eq_true] at hall
    exact ih hall.2 hall.1

theorem takeWhile_append_not {p : Char → Bool} {l r : List Char} {c : Char}
    (hl : l.all p = true) (hc : p c = false) : (l ++ c :: r).takeWhile p = l := by
  induction l with
  | nil => simp [List.takeWhile_cons, hc]
  | cons a t ih =>
    simp only [List.all_cons, Bool.and_eq_true] at hl
    simp [List.takeWhile_cons, hl.1, ih hl.2]

theorem mask_hex {hx : List Char} (hlen : hx.length = 40) (hall : hx.all hexChar = true) :
    maskSensitive hx = chars "***" := by
  have hm1 : runRule m1 hx = hx :=
    runRule_id (fun prev c s hs => m1_none (fun x hxm hxe => by
      subst hxe
      exact absurd (List.all_eq_true.mp hall _ (hs.subset hxm)) (by decide)) prev)
  have hm2 : runRule m2 hx = hx :=
    runRule_id (fun prev c s hs => m2_none (fun x hxm hxe => by
      subst hxe
      exact absurd (List.all_eq_true.mp hall _ (hs.subset hxm)) (by decide)) prev)
  obtain ⟨r₀, t, rfl⟩ : ∃ a s, hx = a :: s := by
    cases hx with
    | nil => simp at hlen
    | cons a s => exact ⟨a, s, rfl⟩
  have hr₀ : hexChar r₀ = true := by
    simp only [List.all_cons, Bool.and_eq_true] at hall
    exact hall.1
  have hrun : (r₀ :: t).takeWhile hexChar = r₀ :: t := takeWhile_all hall
  have hlast : hexChar ((r₀ :: t).getLastD r₀) = true := all_getLastD hall hr₀
  have hw0 : isWordChar r₀ = true := hexChar_isWordChar hr₀
  have hwl : isWordChar ((r₀ :: t).getLastD r₀) = true := hexChar_isWordChar hlast
  have hm3 : m3 none (r₀ :: t) = some (chars "***", (r₀ :: t).getLastD r₀, []) := by
    simp only [m3, hrun, List.drop_length, List.head?_nil, isBoundary, hw0, hwl]
    rw [hlen]
    simp
  have hrun3 : runRule m3 (r₀ :: t) = chars "***" := by
    show globalReplaceB m3 (r₀ :: t).length none (r₀ :: t) = chars "***"
    have hl1 : (r₀ :: t).length = t.length + 1 := rfl
    rw [hl1]
    simp only [globalReplaceB]
    rw [hm3]
    show chars "***" ++ globalReplaceB m3 t.length (some ((r₀ :: t).getLastD r₀)) [] =
      chars "***"
    rw [globalReplaceB_nil, List.append_nil]
  show runRule m4 (runRule m3 (runRule m2 (runRule m1 (r₀ :: t)))) = chars "***"
  rw [hm1, hm2, hrun3]
  decide

theorem mask_token {v : List Char} (hns : v.all (fun c => !jsWs c) = true)
    (hlen : 10 ≤ v.length) :
    maskSensitive (chars "token=" ++ v) = chars "token=***" := by
  have hne : v ≠ [] := by
    intro he
    rw [he] at hlen
    simp at hlen
  have hm : m1 none (chars "token=" ++ v) =
      some (chars "token=***", v.getLastD '=', []) := by
    have hkw : kwAlt (chars "token=" ++ v) = some (chars "token", '=' :: v) := rfl
    simp only [m1, hkw]
    have hdw : List.dropWhile jsWs ('=' :: v) = '=' :: v := rfl
    rw [hdw]
    have hdw2 : List.dropWhile jsWs v = v := dropWhile_all_neg hns
    have htw : List.takeWhile (fun c => !jsWs c) v = v := takeWhile_all hns
    simp only [hdw2, htw, List.drop_length]
    have hvne : v.isEmpty = false := by
      cases v with
      | nil => exact absurd rfl hne
      | cons a b => rfl
    simp [hvne]
    decide
  have hr1 : runRule m1 (chars "token=" ++ v) = chars "token=***" := by
    show globalReplaceB m1 (chars "token=" ++ v).length none (chars "token=" ++ v) =
      chars "token=***"
    have hl1 : (chars "token=" ++ v).length = (v.length + 5) + 1 := by
      simp [chars]
    rw [hl1]
    have hsh : chars "token=" ++ v = 't' :: (chars "oken=" ++ v) := rfl
    rw [hsh]
    simp only [globalReplaceB]
    rw [← hsh, hm]
    show chars "token=***" ++ globalReplaceB m1 (v.length + 5) (some (v.getLastD '=')) [] =
      chars "token=***"
    rw [globalReplaceB_nil, List.append_nil]
  show runRule m4 (runRule m3 (runRule m2 (runRule m1 (chars "token=" ++ v)))) =
    chars "token=***"
  rw [hr1]
  decide

theorem mask_email {lp : List Char} (hne : lp ≠ []) (hall : lp.all localChar = true) :
    maskSensitive (lp ++ chars "@example.com") = chars "*****@*****" := by
  have hm1 : runRule m1 (lp ++ chars "@example.com") = lp ++ chars "@example.com" :=
    runRule_id (fun prev c s hs => m1_none (fun x hxm hxe => by
      subst hxe
      rcases List.mem_append.mp (hs.subset hxm) with hL | hR
      · exact absurd (List.all_eq_true.mp hall _ hL) (by decide)
      · revert hR
        decide) prev)
  obtain ⟨c₀, lt, rfl⟩ : ∃ a s, lp = a :: s := by
    cases lp with
    | nil => exact absurd rfl hne
    | cons a s => exact ⟨a, s, rfl⟩
  have hsplit : chars "@example.com" = '@' :: chars "example.com" := rfl
  have hL : ((c₀ :: lt) ++ '@' :: chars "example.com").takeWhile localChar = c₀ :: lt :=
    takeWhile_append_not hall (by decide)
  have hm2 : m2 none ((c₀ :: lt) ++ chars "@example.com") =
      some (chars "*****@*****", 'm', []) := by
    rw [hsplit]
    simp only [m2, hL, List.isEmpty_cons, Bool.false_eq_true, if_false, List.drop_left]
    decide
  have hrun2 : runRule m2 ((c₀ :: lt) ++ chars "@example.com") = chars "*****@*****" := by
    show globalReplaceB m2 ((c₀ :: lt) ++ chars "@example.com").length none
      ((c₀ :: lt) ++ chars "@example.com") = chars "*****@*****"
    have hl1 : ((c₀ :: lt) ++ chars "@example.com").length = (lt.length + 12) + 1 := by
      simp [chars]
    rw [hl1]
    have hsh : (c₀ :: lt) ++ chars "@example.com" = c₀ :: (lt ++ chars "@example.com") := rfl
    rw [hsh]
    simp only [globalReplaceB]
    rw [← hsh, hm2]
    show chars "*****@*****" ++ globalReplaceB m2 (lt.length + 12) (some 'm') [] =
      chars "*****@*****"
    rw [globalReplaceB_nil, List.append_nil]
  show runRule m4 (runRule m3 (runRule m2 (runRule m1 ((c₀ :: lt) ++ chars "@example.com")))) =
    chars "*****@*****"
  rw [hm1, hrun2]
  decide

/-- C2 counterexample. The masking claim fails as stated: a 40-character
hexadecimal string immediately preceded by an underscore is a credential-like
pattern contained in the input, yet `maskSensitive` leaves it intact — the
underscore is a word character, so the `\b` boundary of the hex rule fails and
no rule fires. The masked output still contains the sensitive substring. -/
theorem c2_mask_counterexample :
    containsSub ('_' :: List.replicate 40 'a') (List.replicate 40 'a') = true ∧
    (List.replicate 40 'a').all hexChar = true ∧
    (List.replicate 40 'a').length = 40 ∧
    containsSub (maskSensitive ('_' :: List.replicate 40 'a')) (List.replicate 40 'a') = true := by
  decide

/-- C2 (amended). On credential-like patterns standing on a word boundary the
mask removes the sensitive substring: a bare 40-character hexadecimal string
becomes `***`; `token=<value>` with a whitespace-free value of length at least
ten becomes `token=***`, which cannot contain the value; and
`<local>@example.com` with a nonempty local part becomes `*****@*****`, which
cannot contain the address. -/
theorem c2_mask_amended :
    (∀ hx : List Char, hx.length = 40 → hx.all hexChar = true →
      maskSensitive hx = chars "***" ∧
      containsSub (maskSensitive hx) hx = false) ∧
    (∀ v : List Char, v.all (fun c => !jsWs c) = true → 10 ≤ v.length →
      maskSensitive (chars "token=" ++ v) = chars "token=***" ∧
      containsSub (maskSensitive (chars "token=" ++ v)) v = false) ∧
    (∀ lp : List Char, lp ≠ [] → lp.all localChar = true →
      maskSensitive (lp ++ chars "@example.com") = chars "*****@*****" ∧
      containsSub (maskSensitive (lp ++ chars "@example.com")) (lp ++ chars "@example.com") =
        false) := by
  refine ⟨fun hx hlen hall => ?_, fun v hns hlen => ?_, fun lp hne hall => ?_⟩
  · have hm := mask_hex hlen hall
    refine ⟨hm, ?_⟩
    rw [hm]
    cases hcs : containsSub (chars "***") hx with
    | false => rfl
    | true =>
      have hle := (containsSub_iff.mp hcs).length_le
      rw [hlen] at hle
      exact absurd hle (by decide)
  · have hm := mask_token hns hlen
    refine ⟨hm, ?_⟩
    rw [hm]
    cases hcs : containsSub (chars "token=***") v with
    | false => rfl
    | true =>
      have hle := (containsSub_iff.mp hcs).length_le
      have h9 : (chars "token=***").length = 9 := by decide
      rw [h9] at hle
      omega
  · have hm := mask_email hne hall
    refine ⟨hm, ?_⟩
    rw [hm]
    cases hcs : containsSub (chars "*****@*****") (lp ++ chars "@example.com") with
    | false => rfl
    | true =>
      have hle := (containsSub_iff.mp hcs).length_le
      have h11 : (chars "*****@*****").length = 11 := by decide
      have h12 : (chars "@example.com").length = 12 := by decide
      rw [h11, List.length_append, h12] at hle
      omega

/-- C2 witness. -/
theorem c2_mask_amended_witness :
    maskSensitive (chars "0123456789abcdef0123456789abcdef01234567") = chars "***" ∧
    maskSensitive (chars "token=" ++ chars "hunter2hunter2") = chars "token=***" ∧
    maskSensitive (chars "alice" ++ chars "@example.com") = chars "*****@*****" :=
  ⟨(c2_mask_amended.1 (chars "0123456789abcdef0123456789abcdef01234567")
      (by decide) (by decide)).1,
   (c2_mask_amended.2.1 (chars "hunter2hunter2") (by decide) (by decide)).1,
   (c2_mask_amended.2.2 (chars "alice") (by decide) (by decide)).1⟩
